import Mathlib

/-!
# cbitset

A shallow embedding of `cbitset.c` (a fixed-size bitset over 64-bit words) and
the properties of its operations.

Conventions of the embedding:

* a `uint64_t` word and a `size_t` are natural numbers below `2 ^ 64`; arithmetic
  that can wrap is reduced modulo `2 ^ 64` explicitly;
* the heap buffer `data` is the list of its allocated words; every read and write
  of a word goes through `load` / `store`, which report an access outside the
  allocation (undefined behaviour in C) as `Fault.outOfBounds`;
* a failed `assert` is reported as the matching `Fault`;
* functions that mutate `*bt` in place return the new value of the struct.
-/

namespace CBitset

/-! ## Data model -/

/-- Ways a call can stop without returning normally: the assertions of the
library, and an access outside the allocated words. -/
inductive Fault where
  | indexOutOfRange
  | sizeMismatch
  | invalidFormat
  | tooLarge
  | outOfBounds
  deriving DecidableEq

deriving instance DecidableEq for Except

/-- The struct `cbitset`: `size` logical bits, stored in the words of `data`. -/
structure cbitset where
  size : Nat
  data : List Nat
  deriving DecidableEq

/-- The constant `INT_MAX` of a 32-bit `int`. -/
def INT_MAX : Nat := 2147483647

/-- Reduction of a value to the range of `size_t`. -/
def size_t (n : Nat) : Nat := n % 2 ^ 64

/-- Subtraction `a - b` of two 64-bit unsigned values, wrapping below zero. -/
def wrap_sub (a b : Nat) : Nat := (a + 2 ^ 64 - b) % 2 ^ 64

/-- Conversion of an unsigned value to a 32-bit `int` (two's complement). -/
def to_int (n : Nat) : Int :=
  if n % 2 ^ 32 < 2 ^ 31 then ((n % 2 ^ 32 : Nat) : Int) else ((n % 2 ^ 32 : Nat) : Int) - 2 ^ 32

/-- The expression `(size + 63) / 64` in `size_t` arithmetic. -/
def chunks_of (size : Nat) : Nat := size_t (size + 63) / 64

/-- The shift `x << s` on `uint64_t`. -/
def shl64 (x s : Nat) : Nat := (x <<< s) % 2 ^ 64

/-- The complement `~x` on `uint64_t`. -/
def not64 (x : Nat) : Nat := 2 ^ 64 - 1 - x

/-- The expression `((uint64_t)1 << extra) - 1`. -/
def low_mask (extra : Nat) : Nat := wrap_sub (shl64 1 extra) 1

/-- Reading `data[i]`. -/
def load (d : List Nat) (i : Nat) : Except Fault Nat :=
  if h : i < d.length then .ok (d.get ⟨i, h⟩) else .error .outOfBounds

/-- Writing `data[i] = v`. -/
def store (d : List Nat) (i v : Nat) : Except Fault (List Nat) :=
  if i < d.length then .ok (d.set i v) else .error .outOfBounds

/-- The loop `for (i = lo; i < lo + n; i++) body`, threading a state. -/
def for_up {σ : Type} (body : Nat → σ → Except Fault σ) : Nat → Nat → σ → Except Fault σ
  | 0, _, s => .ok s
  | n + 1, lo, s => body lo s >>= for_up body n (lo + 1)

/-- The loop `for (i = lo + n; i-- > lo; ) body`, threading a state: the body runs
at `lo + n - 1`, ..., `lo`. -/
def for_down {σ : Type} (body : Nat → σ → Except Fault σ) : Nat → Nat → σ → Except Fault σ
  | 0, _, s => .ok s
  | n + 1, lo, s => body (lo + n) s >>= for_down body n lo

/-- The builtin `__builtin_popcountll` on a 64-bit word, bit by bit. -/
def popcount_bits : Nat → Nat → Nat
  | 0, _ => 0
  | n + 1, x => x % 2 + popcount_bits n (x / 2)

/-- The builtin `__builtin_popcountll`. -/
def popcountll (x : Nat) : Nat := popcount_bits 64 x

/-- The builtin `__builtin_ctzll` on a 64-bit word, bit by bit. -/
def ctz_bits : Nat → Nat → Nat
  | 0, _ => 0
  | n + 1, x => if x % 2 = 1 then 0 else 1 + ctz_bits n (x / 2)

/-- The builtin `__builtin_ctzll` (the code calls it on nonzero words only). -/
def ctzll (x : Nat) : Nat := ctz_bits 64 x

/-! ## Operations -/

/-- The check `ensure_index`: `assert(bit < bt->size)`. -/
def ensure_index (bt : cbitset) (bit : Nat) : Except Fault Unit :=
  if bit < bt.size then .ok () else .error .indexOutOfRange

/-- The helper `normalize_bitset`: clears the bits of the last word above `size % 64`. -/
def normalize_bitset (bt : cbitset) : Except Fault cbitset :=
  let extra := bt.size % 64
  if extra ≠ 0 then do
    let chunks := chunks_of bt.size
    let w ← load bt.data (wrap_sub chunks 1)
    let d ← store bt.data (wrap_sub chunks 1) (w &&& low_mask extra)
    pure ⟨bt.size, d⟩
  else pure bt

/-- The constructor `create_bitset`: `calloc` of `(bits + 63) / 64` zero words. -/
def create_bitset (bits : Nat) : cbitset :=
  ⟨bits, List.replicate (chunks_of bits) 0⟩

/-- The function `set_bitset`. -/
def set_bitset (bt : cbitset) (bit : Nat) : Except Fault cbitset := do
  ensure_index bt bit
  let w ← load bt.data (bit / 64)
  let d ← store bt.data (bit / 64) (w ||| shl64 1 (bit % 64))
  pure ⟨bt.size, d⟩

/-- The function `clear_bitset`. -/
def clear_bitset (bt : cbitset) (bit : Nat) : Except Fault cbitset := do
  ensure_index bt bit
  let w ← load bt.data (bit / 64)
  let d ← store bt.data (bit / 64) (w &&& not64 (shl64 1 (bit % 64)))
  pure ⟨bt.size, d⟩

/-- The function `toggle_bitset`. -/
def toggle_bitset (bt : cbitset) (bit : Nat) : Except Fault cbitset := do
  ensure_index bt bit
  let w ← load bt.data (bit / 64)
  let d ← store bt.data (bit / 64) (w ^^^ shl64 1 (bit % 64))
  pure ⟨bt.size, d⟩

/-- The function `get_bitset`; the result is 0 or 1. -/
def get_bitset (bt : cbitset) (bit : Nat) : Except Fault Int := do
  ensure_index bt bit
  let w ← load bt.data (bit / 64)
  pure (((w >>> (bit % 64)) &&& 1 : Nat) : Int)

/-- The function `count_bitset`; `total` is a `size_t`. -/
def count_bitset (bt : cbitset) : Except Fault Nat :=
  for_up (fun i total => do
      let w ← load bt.data i
      pure (size_t (total + popcountll w)))
    (chunks_of bt.size) 0 0

/-- A `memset` of the first `n` words of a buffer to the word `v`. -/
def fill_words (d : List Nat) (n v : Nat) : Except Fault (List Nat) :=
  if n ≤ d.length then .ok (List.replicate n v ++ d.drop n) else .error .outOfBounds

/-- The function `reset_all_bitset`. -/
def reset_all_bitset (bt : cbitset) : Except Fault cbitset := do
  let d ← fill_words bt.data (chunks_of bt.size) 0
  pure ⟨bt.size, d⟩

/-- The function `set_all_bitset`. -/
def set_all_bitset (bt : cbitset) : Except Fault cbitset := do
  let chunks := chunks_of bt.size
  let d ← fill_words bt.data chunks (2 ^ 64 - 1)
  let extra := bt.size % 64
  if extra ≠ 0 then do
    let d ← store d (wrap_sub chunks 1) (low_mask extra)
    pure ⟨bt.size, d⟩
  else pure ⟨bt.size, d⟩

/-- The function `flip_all_bitset`. -/
def flip_all_bitset (bt : cbitset) : Except Fault cbitset := do
  let chunks := chunks_of bt.size
  let d ← for_up (fun i d => do
      let w ← load d i
      store d i (not64 w)) chunks 0 bt.data
  let extra := bt.size % 64
  if extra ≠ 0 then do
    let w ← load d (wrap_sub chunks 1)
    let d ← store d (wrap_sub chunks 1) (w &&& low_mask extra)
    pure ⟨bt.size, d⟩
  else pure ⟨bt.size, d⟩

/-- The common shape of `and_bitset`, `or_bitset`, `xor_bitset`: the size check,
then `a->data[i] op= b->data[i]` over all chunks. -/
def word_op (op : Nat → Nat → Nat) (a b : cbitset) : Except Fault cbitset :=
  if a.size = b.size then do
    let d ← for_up (fun i d => do
        let x ← load d i
        let y ← load b.data i
        store d i (op x y)) (chunks_of a.size) 0 a.data
    pure ⟨a.size, d⟩
  else .error .sizeMismatch

/-- The function `and_bitset`; the result is the new value of `a`. -/
def and_bitset (a b : cbitset) : Except Fault cbitset := word_op (fun x y => x &&& y) a b

/-- The function `or_bitset`; the result is the new value of `a`. -/
def or_bitset (a b : cbitset) : Except Fault cbitset := word_op (fun x y => x ||| y) a b

/-- The function `xor_bitset`; the result is the new value of `a`. -/
def xor_bitset (a b : cbitset) : Except Fault cbitset := word_op (fun x y => x ^^^ y) a b

/-- The function `not_bitset`. -/
def not_bitset (bt : cbitset) : Except Fault cbitset := flip_all_bitset bt

/-- Writing `s[i] = c` into a character buffer. -/
def store_char (s : List Char) (i : Nat) (c : Char) : Except Fault (List Char) :=
  if i < s.length then .ok (s.set i c) else .error .outOfBounds

/-- The C string held by a character buffer: the characters before the first NUL. -/
def c_string (s : List Char) : List Char := s.takeWhile (fun c => c ≠ '\x00')

/-- The function `bitset_to_string`: a buffer of `size + 1` characters is filled
from the last position down and terminated; the result is the string it holds. -/
def bitset_to_string (bt : cbitset) : Except Fault (List Char) := do
  let s := List.replicate (size_t (bt.size + 1)) '\x00'
  let s ← for_up (fun i s => do
      let b ← get_bitset bt i
      store_char s (wrap_sub (wrap_sub bt.size 1) i) (if b ≠ 0 then '1' else '0'))
    bt.size 0 s
  let s ← store_char s bt.size '\x00'
  pure (c_string s)

/-- The function `bitset_from_string`; `str` is the string without its NUL, so
`str.length` is what the `strlen` loop computes. -/
def bitset_from_string (str : List Char) : Except Fault cbitset := do
  let len := str.length
  let bt ← for_up (fun i bt =>
      match str.get? i with
      | none => .error .outOfBounds
      | some c =>
        if c = '1' then set_bitset bt (wrap_sub (wrap_sub len 1) i)
        else if c ≠ '0' then .error .invalidFormat
        else pure bt)
    len 0 (create_bitset len)
  normalize_bitset bt

/-- The function `copy_bitset`: `memcpy` of the chunks into a fresh buffer. -/
def copy_bitset (src : cbitset) : Except Fault cbitset :=
  let chunks := chunks_of src.size
  if chunks ≤ src.data.length then .ok ⟨src.size, src.data.take chunks⟩
  else .error .outOfBounds

/-- The function `equal_bitset`: size test, then `memcmp` of the chunks. -/
def equal_bitset (a b : cbitset) : Except Fault Int :=
  if a.size ≠ b.size then .ok 0
  else
    let chunks := chunks_of a.size
    if chunks ≤ a.data.length ∧ chunks ≤ b.data.length then
      .ok (if a.data.take chunks = b.data.take chunks then 1 else 0)
    else .error .outOfBounds

/-- The function `not_equal_bitset`. -/
def not_equal_bitset (a b : cbitset) : Except Fault Int := do
  let r ← equal_bitset a b
  pure (if r = 0 then 1 else 0)

/-- The function `shl_bitset`. -/
def shl_bitset (bt : cbitset) (shift : Nat) : Except Fault cbitset :=
  if shift = 0 ∨ bt.size = 0 then pure bt
  else do
    let chunks := chunks_of bt.size
    let word_shift := shift / 64
    let bit_shift := shift % 64
    let d ← (if word_shift > 0 then do
        let d ← for_down (fun i d => do
            let w ← load d (i - word_shift)
            store d i w) (chunks - word_shift) word_shift bt.data
        for_up (fun i d => store d i 0) word_shift 0 d
      else pure bt.data)
    let d ← (if bit_shift > 0 then
        for_down (fun i d => do
            let w ← load d i
            let hi := shl64 w bit_shift
            let lo ← (if i > 0 then do
                let v ← load d (i - 1)
                pure (v >>> (64 - bit_shift))
              else pure 0)
            store d i (hi ||| lo)) chunks 0 d
      else pure d)
    let extra := bt.size % 64
    let d ← (if extra ≠ 0 then do
        let w ← load d (wrap_sub chunks 1)
        store d (wrap_sub chunks 1) (w &&& low_mask extra)
      else pure d)
    normalize_bitset ⟨bt.size, d⟩

/-- The function `shr_bitset`. The first loop runs while `i + word_shift < chunks`,
that is for `i` below `chunks - word_shift`; the second starts at
`chunks - word_shift` computed in `size_t`. -/
def shr_bitset (bt : cbitset) (shift : Nat) : Except Fault cbitset :=
  if shift = 0 ∨ bt.size = 0 then pure bt
  else do
    let chunks := chunks_of bt.size
    let word_shift := shift / 64
    let bit_shift := shift % 64
    let d ← (if word_shift > 0 then do
        let d ← for_up (fun i d => do
            let w ← load d (i + word_shift)
            store d i w) (chunks - word_shift) 0 bt.data
        for_up (fun i d => store d i 0)
          (chunks - wrap_sub chunks word_shift) (wrap_sub chunks word_shift) d
      else pure bt.data)
    let d ← (if bit_shift > 0 then
        for_up (fun i d => do
            let w ← load d i
            let lo := w >>> bit_shift
            let hi ← (if i + 1 < chunks then do
                let v ← load d (i + 1)
                pure (shl64 v (64 - bit_shift))
              else pure 0)
            store d i (lo ||| hi)) chunks 0 d
      else pure d)
    let extra := bt.size % 64
    let d ← (if extra ≠ 0 then do
        let w ← load d (wrap_sub chunks 1)
        store d (wrap_sub chunks 1) (w &&& low_mask extra)
      else pure d)
    normalize_bitset ⟨bt.size, d⟩

/-- The scan of `bitset_any` over `n` words from index `i`. -/
def any_from (d : List Nat) : Nat → Nat → Except Fault Int
  | 0, _ => .ok 0
  | n + 1, i => do
    let w ← load d i
    if w ≠ 0 then pure 1 else any_from d n (i + 1)

/-- The function `bitset_any`. -/
def bitset_any (bt : cbitset) : Except Fault Int :=
  any_from bt.data (chunks_of bt.size) 0

/-- The function `bitset_none`. -/
def bitset_none (bt : cbitset) : Except Fault Int := do
  let r ← bitset_any bt
  pure (if r = 0 then 1 else 0)

/-- The scan of `bitset_all` over `n` full words from index `i`: whether all are
`UINT64_MAX`. -/
def all_from (d : List Nat) : Nat → Nat → Except Fault Bool
  | 0, _ => .ok true
  | n + 1, i => do
    let w ← load d i
    if w ≠ 2 ^ 64 - 1 then pure false else all_from d n (i + 1)

/-- The function `bitset_all`. -/
def bitset_all (bt : cbitset) : Except Fault Int := do
  let full_chunks := bt.size / 64
  let extra_bits := bt.size % 64
  let full ← all_from bt.data full_chunks 0
  if ¬ full then pure 0
  else if extra_bits ≠ 0 then do
    let mask := low_mask extra_bits
    let w ← load bt.data full_chunks
    if w &&& mask ≠ mask then pure 0 else pure 1
  else pure 1

/-- The word scan shared by `bitset_find_first` and `bitset_find_next`: over `n`
words from index `i`, the first nonzero word decides the result. -/
def scan_from (bt : cbitset) : Nat → Nat → Except Fault Int
  | 0, _ => .ok (-1)
  | n + 1, i => do
    let w ← load bt.data i
    if w ≠ 0 then
      let idx : Int := (i : Int) * 64 + (ctzll w : Int)
      pure (if idx < (bt.size : Int) then idx else -1)
    else scan_from bt n (i + 1)

/-- The function `bitset_find_first`. -/
def bitset_find_first (bt : cbitset) : Except Fault Int :=
  if bt.size ≤ INT_MAX then scan_from bt (chunks_of bt.size) 0
  else .error .tooLarge

/-- The function `bitset_find_next`. `next`, `chunk` and `bit` are `int`s; a negative
`chunk` or `bit` makes the access `data[chunk]` or the shift undefined. -/
def bitset_find_next (bt : cbitset) (prev_index : Nat) : Except Fault Int :=
  if ¬ bt.size ≤ INT_MAX then .error .tooLarge
  else if prev_index ≥ wrap_sub bt.size 1 then pure (-1)
  else
    let next : Int := to_int (size_t (prev_index + 1))
    let chunk : Int := Int.tdiv next 64
    let bit : Int := Int.tmod next 64
    let chunks := chunks_of bt.size
    if chunk < 0 ∨ bit < 0 then .error .outOfBounds
    else do
      let w ← load bt.data chunk.toNat
      let x := w &&& shl64 (2 ^ 64 - 1) bit.toNat
      if x ≠ 0 then
        let idx : Int := chunk * 64 + (ctzll x : Int)
        pure (if idx < (bt.size : Int) then idx else -1)
      else scan_from bt (chunks - (chunk.toNat + 1)) (chunk.toNat + 1)

/-! ## Specification vocabulary: words, bits, the invariant -/

/-- Word `j` of a buffer, 0 outside the allocation. -/
def wd (d : List Nat) (j : Nat) : Nat := d.getD j 0

/-- Logical bit `j` of a buffer: bit `j % 64` of word `j / 64`. -/
def bit (d : List Nat) (j : Nat) : Bool := (wd d (j / 64)).testBit (j % 64)

/-- The zero-padding invariant of a bitset: the buffer has `ceil(size / 64)` words,
each a 64-bit value, and every bit of the last word at a logical index `>= size` is 0.
The size is a `size_t` for which `size + 63` does not wrap, so that `ceil(size / 64)`
is the chunk count `(size + 63) / 64` every function computes (a larger size would
need `2 ^ 58` words of storage). -/
def Valid (bt : cbitset) : Prop :=
  bt.size + 63 < 2 ^ 64 ∧
  bt.data.length = (bt.size + 63) / 64 ∧
  (∀ w ∈ bt.data, w < 2 ^ 64) ∧
  (∀ k, k < 64 → bt.size ≤ 64 * (bt.data.length - 1) + k →
    (wd bt.data (bt.data.length - 1)).testBit k = false)

instance (bt : cbitset) : Decidable (Valid bt) := by
  unfold Valid; infer_instance

/-- The buffer after `data[chunks - 1] &= (1 << extra) - 1` when `extra != 0`. -/
def masked (size : Nat) (d : List Nat) : List Nat :=
  if size % 64 ≠ 0 then
    d.set (d.length - 1) (wd d (d.length - 1) &&& low_mask (size % 64))
  else d

/-- Word `j` after the sub-word left shift by `bs`. -/
def shl_word (d : List Nat) (bs j : Nat) : Nat :=
  shl64 (wd d j) bs ||| (if j > 0 then wd d (j - 1) >>> (64 - bs) else 0)

/-- Word `j` after the sub-word right shift by `bs` over `c` chunks. -/
def shr_word (d : List Nat) (bs c j : Nat) : Nat :=
  (wd d j >>> bs) ||| (if j + 1 < c then shl64 (wd d (j + 1)) (64 - bs) else 0)

/-- What a scan for the lowest set bit with index at least `a` may return: `-1` when
no bit from `a` on is set, else the least set index `m >= a`. -/
def IsNext (bt : cbitset) (a : Nat) (r : Int) : Prop :=
  (r = -1 ∧ ∀ j, a ≤ j → bit bt.data j = false) ∨
  (∃ m : Nat, r = (m : Int) ∧ a ≤ m ∧ m < bt.size ∧ bit bt.data m = true ∧
    ∀ j, a ≤ j → j < m → bit bt.data j = false)

/-- The enumeration loop `for (i = first; i != -1; i = bitset_find_next(bt, i))` of a
caller, collecting the visited indices (a visited index is not negative, and is passed
on as the `size_t` of the same value). `fuel` bounds the number of iterations; `none`
reports that the bound was reached before `-1` came back. -/
def collect_from (bt : cbitset) : Nat → Int → Except Fault (Option (List Int))
  | 0, r => if r = -1 then .ok (some []) else .ok none
  | fuel + 1, r =>
    if r = -1 then .ok (some [])
    else do
      let nx ← bitset_find_next bt r.toNat
      let rest ← collect_from bt fuel nx
      pure (rest.map (fun l => r :: l))

/-- The sequence `i0 = bitset_find_first(bt)`, `i(k+1) = bitset_find_next(bt, ik)`,
stopped at the first `-1`. -/
def set_bit_chain (bt : cbitset) (fuel : Nat) : Except Fault (Option (List Int)) := do
  let r ← bitset_find_first bt
  collect_from bt fuel r

/-- The character `bitset_to_string` writes for bit `j`. -/
def bit_char (d : List Nat) (j : Nat) : Char := if bit d j then '1' else '0'

/-- The digits of a bitset, most significant first. -/
def digits (bt : cbitset) : List Char :=
  (List.range bt.size).map (fun k => bit_char bt.data (bt.size - 1 - k))

/-- A well-formed `cbitset` object: the size is a `size_t` whose chunk count does not
wrap, and the buffer has the `(size + 63) / 64` words the constructors allocate, each
a 64-bit value. Nothing is required of the padding bits. -/
def WellFormed (bt : cbitset) : Prop :=
  bt.size + 63 < 2 ^ 64 ∧
  bt.data.length = (bt.size + 63) / 64 ∧
  (∀ w ∈ bt.data, w < 2 ^ 64)

instance (bt : cbitset) : Decidable (WellFormed bt) := by
  unfold WellFormed; infer_instance

/-! ## Basic facts -/

theorem ok_bind {α β : Type} (a : α) (f : α → Except Fault β) :
    (Except.ok a >>= f) = f a := rfl

theorem error_bind {α β : Type} (e : Fault) (f : α → Except Fault β) :
    (Except.error e >>= f) = Except.error e := rfl

theorem pure_eq_ok {α : Type} (a : α) : (pure a : Except Fault α) = Except.ok a := rfl

theorem chunks_of_eq {n : Nat} (h : n + 63 < 2 ^ 64) : chunks_of n = (n + 63) / 64 := by
  unfold chunks_of size_t; omega

theorem wrap_sub_eq {a b : Nat} (hb : b ≤ a) (ha : a < 2 ^ 64) : wrap_sub a b = a - b := by
  unfold wrap_sub; omega

theorem shl64_one {s : Nat} (h : s < 64) : shl64 1 s = 2 ^ s := by
  unfold shl64
  rw [Nat.one_shiftLeft]
  exact Nat.mod_eq_of_lt (Nat.pow_lt_pow_right (by norm_num) h)

theorem low_mask_eq {e : Nat} (h : e < 64) : low_mask e = 2 ^ e - 1 := by
  unfold low_mask
  rw [shl64_one h]
  have h1 : 2 ^ e < 2 ^ 64 := Nat.pow_lt_pow_right (by norm_num) h
  have h2 : 0 < 2 ^ e := Nat.pos_pow_of_pos _ (by norm_num)
  rw [wrap_sub_eq (by omega) h1]

theorem wd_lt_length {d : List Nat} {j : Nat} (h : j < d.length) : wd d j = d.get ⟨j, h⟩ := by
  simp [wd, List.getD_eq_getElem?_getD, List.getElem?_eq_getElem h]

theorem wd_ge_length {d : List Nat} {j : Nat} (h : d.length ≤ j) : wd d j = 0 := by
  simp [wd, List.getD_eq_getElem?_getD, List.getElem?_eq_none h]

theorem wd_set (d : List Nat) (i v j : Nat) :
    wd (d.set i v) j = if i = j ∧ i < d.length then v else wd d j := by
  simp only [wd, List.getD_eq_getElem?_getD, List.getElem?_set]
  by_cases h : i = j
  · subst h
    by_cases h2 : i < d.length
    · simp [h2]
    · simp [h2, List.getElem?_eq_none (Nat.le_of_not_lt h2)]
  · simp [h]

theorem load_ok {d : List Nat} {i : Nat} (h : i < d.length) : load d i = .ok (wd d i) := by
  simp [load, h, wd_lt_length h]

theorem store_ok {d : List Nat} {i : Nat} (v : Nat) (h : i < d.length) :
    store d i v = .ok (d.set i v) := by
  simp [store, h]

theorem wd_lt_two_pow {d : List Nat} (h : ∀ w ∈ d, w < 2 ^ 64) (j : Nat) : wd d j < 2 ^ 64 := by
  by_cases hj : j < d.length
  · rw [wd_lt_length hj]; exact h _ (List.get_mem _ _ _)
  · rw [wd_ge_length (Nat.le_of_not_lt hj)]; norm_num

/-! ## Loop rules -/

/-- Invariant rule for `for_up`: a body that keeps `I` from `i` to `i + 1` runs to
completion and establishes `I` at the upper bound. -/
theorem for_up_rule {σ : Type} (body : Nat → σ → Except Fault σ) (I : Nat → σ → Prop) :
    ∀ (n lo : Nat) (s : σ),
      (∀ i t, lo ≤ i → i < lo + n → I i t → ∃ t', body i t = .ok t' ∧ I (i + 1) t') →
      I lo s → ∃ s', for_up body n lo s = .ok s' ∧ I (lo + n) s' := by
  intro n
  induction n with
  | zero => intro lo s _ h0; exact ⟨s, rfl, by simpa using h0⟩
  | succ n ih =>
    intro lo s hbody h0
    obtain ⟨t, ht, hI⟩ := hbody lo s (Nat.le_refl _) (by omega) h0
    obtain ⟨s', hs', hI'⟩ := ih (lo + 1) t
      (fun i u h1 h2 h3 => hbody i u (by omega) (by omega) h3) hI
    refine ⟨s', ?_, ?_⟩
    · simp only [for_up, ht, ok_bind, hs']
    · have : lo + (n + 1) = lo + 1 + n := by omega
      rw [this]; exact hI'

/-- Invariant rule for `for_down`: a body that keeps `I` from `i + 1` to `i` runs to
completion and establishes `I` at the lower bound. -/
theorem for_down_rule {σ : Type} (body : Nat → σ → Except Fault σ) (I : Nat → σ → Prop) :
    ∀ (n lo : Nat) (s : σ),
      (∀ i t, lo ≤ i → i < lo + n → I (i + 1) t → ∃ t', body i t = .ok t' ∧ I i t') →
      I (lo + n) s → ∃ s', for_down body n lo s = .ok s' ∧ I lo s' := by
  intro n
  induction n with
  | zero => intro lo s _ h0; exact ⟨s, rfl, by simpa using h0⟩
  | succ n ih =>
    intro lo s hbody h0
    obtain ⟨t, ht, hI⟩ := hbody (lo + n) s (by omega) (by omega) h0
    obtain ⟨s', hs', hI'⟩ := ih lo t
      (fun i u h1 h2 h3 => hbody i u h1 (by omega) h3) hI
    exact ⟨s', by simp only [for_down, ht, ok_bind, hs'], hI'⟩

/-! ## Bits of words -/

theorem bit_eq (d : List Nat) (q k : Nat) (hk : k < 64) :
    bit d (64 * q + k) = (wd d q).testBit k := by
  unfold bit
  have h1 : (64 * q + k) / 64 = q := by omega
  have h2 : (64 * q + k) % 64 = k := by omega
  rw [h1, h2]

theorem bit_ge_length {d : List Nat} {j : Nat} (h : 64 * d.length ≤ j) : bit d j = false := by
  unfold bit
  rw [wd_ge_length (by omega)]
  simp

theorem testBit_ge_64 {w : Nat} (h : w < 2 ^ 64) {k : Nat} (hk : 64 ≤ k) :
    w.testBit k = false :=
  Nat.testBit_lt_two_pow (Nat.lt_of_lt_of_le h (Nat.pow_le_pow_right (by norm_num) hk))

theorem word_ext {x y : Nat} (hx : x < 2 ^ 64) (hy : y < 2 ^ 64)
    (h : ∀ k, k < 64 → x.testBit k = y.testBit k) : x = y := by
  apply Nat.eq_of_testBit_eq
  intro k
  by_cases hk : k < 64
  · exact h k hk
  · rw [testBit_ge_64 hx (by omega), testBit_ge_64 hy (by omega)]

theorem testBit_shl64 (w s k : Nat) :
    (shl64 w s).testBit k = (decide (k < 64) && decide (s ≤ k) && w.testBit (k - s)) := by
  unfold shl64
  rw [Nat.testBit_mod_two_pow, Nat.testBit_shiftLeft]
  simp [Bool.and_assoc]

theorem testBit_low_mask {e : Nat} (h : e < 64) (k : Nat) :
    (low_mask e).testBit k = decide (k < e) := by
  rw [low_mask_eq h, Nat.testBit_two_pow_sub_one]

theorem testBit_not64 {w : Nat} (h : w < 2 ^ 64) (k : Nat) :
    (not64 w).testBit k = (decide (k < 64) && !w.testBit k) := by
  unfold not64
  have : 2 ^ 64 - 1 - w = 2 ^ 64 - (w + 1) := by omega
  rw [this, Nat.testBit_two_pow_sub_succ h]

theorem shl64_lt (w s : Nat) : shl64 w s < 2 ^ 64 := Nat.mod_lt _ (by norm_num)

theorem shr_lt {w : Nat} (h : w < 2 ^ 64) (s : Nat) : w >>> s < 2 ^ 64 := by
  rw [Nat.shiftRight_eq_div_pow]
  exact Nat.lt_of_le_of_lt (Nat.div_le_self _ _) h

theorem low_mask_lt {e : Nat} (h : e < 64) : low_mask e < 2 ^ 64 := by
  rw [low_mask_eq h]
  have : 2 ^ e < 2 ^ 64 := Nat.pow_lt_pow_right (by norm_num) h
  omega

/-- Two buffers of the same length with 64-bit words and the same bits are equal. -/
theorem data_ext {d e : List Nat} (hlen : d.length = e.length)
    (hd : ∀ w ∈ d, w < 2 ^ 64) (he : ∀ w ∈ e, w < 2 ^ 64)
    (h : ∀ j, j < 64 * d.length → bit d j = bit e j) : d = e := by
  apply List.ext_get hlen
  intro q h1 h2
  have := word_ext (wd_lt_two_pow hd q) (wd_lt_two_pow he q) (fun k hk => by
    rw [← bit_eq d q k hk, ← bit_eq e q k hk]
    exact h _ (by omega))
  rw [wd_lt_length h1, wd_lt_length h2] at this
  exact this

/-- Words of a buffer after a store stay 64-bit values. -/
theorem set_lt {d : List Nat} (h : ∀ w ∈ d, w < 2 ^ 64) {v : Nat} (hv : v < 2 ^ 64) (i : Nat) :
    ∀ w ∈ d.set i v, w < 2 ^ 64 := by
  intro w hw
  rcases List.mem_or_eq_of_mem_set hw with h1 | h1
  · exact h w h1
  · rw [h1]; exact hv

theorem all_lt_of_wd {d : List Nat} (h : ∀ j, wd d j < 2 ^ 64) : ∀ w ∈ d, w < 2 ^ 64 := by
  intro w hw
  obtain ⟨i, hi⟩ := List.mem_iff_get.mp hw
  rw [← hi, ← wd_lt_length i.2]
  exact h _

/-! ## The final-word mask -/

theorem masked_length (size : Nat) (d : List Nat) : (masked size d).length = d.length := by
  unfold masked; split <;> simp

theorem masked_lt {size : Nat} {d : List Nat} (h : ∀ w ∈ d, w < 2 ^ 64) :
    ∀ w ∈ masked size d, w < 2 ^ 64 := by
  unfold masked
  split
  · exact set_lt h (Nat.lt_of_le_of_lt Nat.and_le_left (wd_lt_two_pow h _)) _
  · exact h

theorem bit_masked {size : Nat} {d : List Nat} (hlen : d.length = (size + 63) / 64) (j : Nat) :
    bit (masked size d) j = (decide (j < size) && bit d j) := by
  unfold masked
  by_cases he : size % 64 = 0
  · simp only [he, ne_eq, not_true_eq_false, ↓reduceIte]
    by_cases hj : j < size
    · simp [hj]
    · rw [bit_ge_length (by omega)]; simp [hj]
  · simp only [ne_eq, he, not_false_eq_true, ↓reduceIte]
    unfold bit
    rw [wd_set]
    by_cases hq : d.length - 1 = j / 64 ∧ d.length - 1 < d.length
    · rw [if_pos hq, Nat.testBit_and, testBit_low_mask (Nat.mod_lt _ (by norm_num)), hq.1]
      have : decide (j % 64 < size % 64) = decide (j < size) := by
        apply decide_eq_decide.mpr; omega
      rw [this, Bool.and_comm]
    · rw [if_neg hq]
      by_cases hj : j < size
      · simp [hj]
      · have : d.length ≤ j / 64 := by omega
        rw [wd_ge_length this]; simp

/-- The masking step shared by `normalize_bitset` and the shifts. -/
theorem mask_step {size : Nat} {d : List Nat} (hs : size + 63 < 2 ^ 64)
    (hlen : d.length = (size + 63) / 64) (he : size % 64 ≠ 0) :
    (load d (wrap_sub (chunks_of size) 1) >>= fun w =>
      store d (wrap_sub (chunks_of size) 1) (w &&& low_mask (size % 64)))
      = .ok (masked size d) := by
  have h1 : wrap_sub (chunks_of size) 1 = d.length - 1 := by
    rw [chunks_of_eq hs, wrap_sub_eq (by omega) (by omega), hlen]
  have h2 : d.length - 1 < d.length := by omega
  rw [h1, load_ok h2, ok_bind, store_ok _ h2]
  simp [masked, he]

theorem normalize_ok {bt : cbitset} (hs : bt.size + 63 < 2 ^ 64)
    (hlen : bt.data.length = (bt.size + 63) / 64) :
    normalize_bitset bt = .ok ⟨bt.size, masked bt.size bt.data⟩ := by
  unfold normalize_bitset
  by_cases he : bt.size % 64 = 0
  · simp [he, masked, pure_eq_ok]
  · simp only [ne_eq, he, not_false_eq_true, ↓reduceIte]
    have := mask_step hs hlen he
    simp only [bind, Except.bind] at this ⊢
    revert this
    cases load bt.data (wrap_sub (chunks_of bt.size) 1) with
    | error e => intro h; simp at h
    | ok w =>
      simp only
      intro h
      rw [h]
      rfl

/-- Bits at and above `size` are zero in a valid bitset. -/
theorem Valid.bit_ge {bt : cbitset} (hv : Valid bt) {j : Nat} (hj : bt.size ≤ j) :
    bit bt.data j = false := by
  obtain ⟨_, hlen, _, hpad⟩ := hv
  by_cases h : j < 64 * bt.data.length
  · have h1 : j / 64 = bt.data.length - 1 := by omega
    unfold bit
    rw [h1]
    exact hpad (j % 64) (Nat.mod_lt _ (by norm_num)) (by omega)
  · exact bit_ge_length (by omega)

/-- A buffer of the right length with 64-bit words and zero bits from `size` on
gives a valid bitset. -/
theorem valid_of_bits {size : Nat} {d : List Nat} (hs : size + 63 < 2 ^ 64)
    (hlen : d.length = (size + 63) / 64) (hw : ∀ w ∈ d, w < 2 ^ 64)
    (hb : ∀ j, size ≤ j → bit d j = false) : Valid ⟨size, d⟩ := by
  refine ⟨hs, hlen, hw, ?_⟩
  intro k hk hle
  have := hb (64 * (d.length - 1) + k) hle
  rw [bit_eq _ _ _ hk] at this
  exact this

theorem valid_masked {size : Nat} {d : List Nat} (hs : size + 63 < 2 ^ 64)
    (hlen : d.length = (size + 63) / 64) (hw : ∀ w ∈ d, w < 2 ^ 64) :
    Valid ⟨size, masked size d⟩ := by
  apply valid_of_bits hs (by rw [masked_length]; exact hlen) (masked_lt hw)
  intro j hj
  rw [bit_masked hlen]
  simp [Nat.not_lt.mpr hj]

theorem masked_masked {size : Nat} {d : List Nat} (hlen : d.length = (size + 63) / 64)
    (hw : ∀ w ∈ d, w < 2 ^ 64) : masked size (masked size d) = masked size d := by
  apply data_ext (by simp [masked_length]) (masked_lt (masked_lt hw)) (masked_lt hw)
  intro j _
  rw [bit_masked (by rw [masked_length]; exact hlen), bit_masked hlen]
  cases decide (j < size) <;> simp

/-- Reading a bit below `size`: `get_bitset` returns the logical bit. -/
theorem get_bitset_ok {bt : cbitset} {i : Nat} (hi : i < bt.size)
    (hlen : bt.data.length = (bt.size + 63) / 64) :
    get_bitset bt i = .ok (if bit bt.data i then 1 else 0) := by
  unfold get_bitset ensure_index
  have h1 : i / 64 < bt.data.length := by omega
  simp only [hi, ↓reduceIte, ok_bind, load_ok h1, pure_eq_ok]
  congr 1
  unfold bit
  rw [Nat.testBit]
  have : (wd bt.data (i / 64) >>> (i % 64) &&& 1) = (wd bt.data (i / 64) >>> (i % 64)) % 2 := by
    rw [Nat.and_comm, Nat.one_and_eq_mod_two]
  rcases Nat.mod_two_eq_zero_or_one (wd bt.data (i / 64) >>> (i % 64)) with h | h <;>
    simp [this, h]

/-! ## Left shift -/

/-- Word relocation of `shl_bitset`: words move up by `ws` positions. -/
theorem shl_move_ok (d0 : List Nat) (ws : Nat) (hws : 0 < ws) (hle : ws ≤ d0.length) :
    ∃ d, for_down (fun i d => do
            let w ← load d (i - ws)
            store d i w) (d0.length - ws) ws d0 = .ok d ∧
      d.length = d0.length ∧
      ∀ j, wd d j = if ws ≤ j ∧ j < d0.length then wd d0 (j - ws) else wd d0 j := by
  have key := for_down_rule (fun i d => do
            let w ← load d (i - ws)
            store d i w)
    (fun i d => d.length = d0.length ∧
      ∀ j, wd d j = if i ≤ j ∧ j < d0.length then wd d0 (j - ws) else wd d0 j)
    (d0.length - ws) ws d0 ?_ ?_
  · obtain ⟨d, h1, h2, h3⟩ := key
    exact ⟨d, h1, h2, h3⟩
  · intro i t h1 h2 ⟨hl, hI⟩
    have hi : i < t.length := by omega
    have hi2 : i - ws < t.length := by omega
    refine ⟨t.set i (wd t (i - ws)), ?_, by simp [hl], ?_⟩
    · simp only [load_ok hi2, ok_bind, store_ok _ hi]
    · intro j
      rw [wd_set, hI (i - ws), hI j]
      by_cases hj : i = j
      · subst hj
        have : ¬ (i + 1 ≤ i - ws ∧ i - ws < d0.length) := by omega
        simp [hi, this, show i < d0.length by omega]
      · have h3 : ¬ (i = j ∧ i < t.length) := by omega
        rw [if_neg h3]
        by_cases h4 : i ≤ j ∧ j < d0.length
        · rw [if_pos h4, if_pos (by omega)]
        · rw [if_neg h4, if_neg (by omega)]
  · refine ⟨rfl, fun j => ?_⟩
    rw [if_neg (by omega)]

/-- Zero fill of `shl_bitset`: the first `ws` words become 0. -/
theorem zero_fill_ok (d1 : List Nat) (lo n : Nat) (hle : lo + n ≤ d1.length) :
    ∃ d, for_up (fun i d => store d i 0) n lo d1 = .ok d ∧
      d.length = d1.length ∧
      ∀ j, wd d j = if lo ≤ j ∧ j < lo + n then 0 else wd d1 j := by
  have key := for_up_rule (fun i d => store d i 0)
    (fun i d => d.length = d1.length ∧
      ∀ j, wd d j = if lo ≤ j ∧ j < i then 0 else wd d1 j)
    n lo d1 ?_ ?_
  · obtain ⟨d, h1, h2, h3⟩ := key
    exact ⟨d, h1, h2, h3⟩
  · intro i t h1 h2 ⟨hl, hI⟩
    have hi : i < t.length := by omega
    refine ⟨t.set i 0, store_ok _ hi, by simp [hl], ?_⟩
    intro j
    rw [wd_set, hI j]
    by_cases hj : i = j
    · subst hj
      simp [hi, h1]
    · have h3 : ¬ (i = j ∧ i < t.length) := by omega
      rw [if_neg h3]
      by_cases h4 : lo ≤ j ∧ j < i
      · rw [if_pos h4, if_pos (by omega)]
      · rw [if_neg h4, if_neg (by omega)]
  · refine ⟨rfl, fun j => ?_⟩
    rw [if_neg (by omega)]

/-- Sub-word loop of `shl_bitset`. -/
theorem shl_bits_ok (d2 : List Nat) (bs : Nat) :
    ∃ d, for_down (fun i d => do
            let w ← load d i
            let lo ← (if i > 0 then do
                let v ← load d (i - 1)
                pure (v >>> (64 - bs))
              else pure 0)
            store d i (shl64 w bs ||| lo)) d2.length 0 d2 = .ok d ∧
      d.length = d2.length ∧
      ∀ j, wd d j = if j < d2.length then shl_word d2 bs j else wd d2 j := by
  have key := for_down_rule (fun i d => do
            let w ← load d i
            let lo ← (if i > 0 then do
                let v ← load d (i - 1)
                pure (v >>> (64 - bs))
              else pure 0)
            store d i (shl64 w bs ||| lo))
    (fun i d => d.length = d2.length ∧
      ∀ j, wd d j = if i ≤ j ∧ j < d2.length then shl_word d2 bs j else wd d2 j)
    d2.length 0 d2 ?_ ?_
  · obtain ⟨d, h1, h2, h3⟩ := key
    refine ⟨d, h1, h2, fun j => ?_⟩
    rw [h3 j]; simp
  · intro i t _ h2 ⟨hl, hI⟩
    have hi : i < t.length := by omega
    refine ⟨t.set i (shl_word d2 bs i), ?_, by simp [hl], ?_⟩
    · simp only [load_ok hi, ok_bind]
      by_cases h0 : i > 0
      · have hi2 : i - 1 < t.length := by omega
        simp only [h0, ↓reduceIte, load_ok hi2, ok_bind, pure_eq_ok, store_ok _ hi]
        rw [hI i, hI (i - 1), if_neg (by omega), if_neg (by omega)]
        simp [shl_word, h0]
      · simp only [h0, ↓reduceIte, pure_eq_ok, ok_bind, store_ok _ hi]
        rw [hI i, if_neg (by omega)]
        simp [shl_word, h0]
    · intro j
      rw [wd_set, hI j]
      by_cases hj : i = j
      · subst hj
        simp [hi, show i < d2.length by omega]
      · have h3 : ¬ (i = j ∧ i < t.length) := by omega
        rw [if_neg h3]
        by_cases h4 : i ≤ j ∧ j < d2.length
        · rw [if_pos h4, if_pos (by omega)]
        · rw [if_neg h4, if_neg (by omega)]
  · refine ⟨rfl, fun j => ?_⟩
    rw [if_neg (by omega)]

theorem shl_word_lt (d : List Nat) (hd : ∀ w ∈ d, w < 2 ^ 64) (bs j : Nat) :
    shl_word d bs j < 2 ^ 64 := by
  unfold shl_word
  apply Nat.or_lt_two_pow (shl64_lt _ _)
  split
  · exact shr_lt (wd_lt_two_pow hd _) _
  · norm_num

/-- Bits after the sub-word left shift. -/
theorem bit_shl_word (d : List Nat) (hd : ∀ w ∈ d, w < 2 ^ 64) (bs : Nat) (hbs : 0 < bs)
    (hbs2 : bs < 64) (j : Nat) :
    (shl_word d bs (j / 64)).testBit (j % 64) = (decide (bs ≤ j) && bit d (j - bs)) := by
  unfold shl_word
  rw [Nat.testBit_or, testBit_shl64]
  have hk : j % 64 < 64 := Nat.mod_lt _ (by norm_num)
  by_cases h1 : bs ≤ j % 64
  · -- the bit comes from the same word
    have e1 : (j - bs) / 64 = j / 64 := by omega
    have e2 : (j - bs) % 64 = j % 64 - bs := by omega
    have e3 : (if j / 64 > 0 then wd d (j / 64 - 1) >>> (64 - bs) else 0).testBit (j % 64)
        = false := by
      split
      · rw [Nat.testBit_shiftRight]
        exact testBit_ge_64 (wd_lt_two_pow hd _) (by omega)
      · simp
    rw [e3]
    unfold bit
    rw [e1, e2]
    simp [hk, h1, show bs ≤ j by omega]
  · by_cases h2 : j / 64 > 0
    · have e1 : (j - bs) / 64 = j / 64 - 1 := by omega
      have e2 : (j - bs) % 64 = 64 - bs + j % 64 := by omega
      rw [if_pos h2, Nat.testBit_shiftRight]
      unfold bit
      rw [e1, e2]
      simp [h1, show bs ≤ j by omega]
    · rw [if_neg h2]
      simp [h1, show ¬ bs ≤ j by omega]

/-- Whole-word stage of `shl_bitset`, in bits. -/
theorem shl_stage_words (d0 : List Nat) (c ws : Nat) (hc : c = d0.length) (hle : ws ≤ c)
    (hd : ∀ w ∈ d0, w < 2 ^ 64) :
    ∃ dA, (if ws > 0 then do
              let d ← for_down (fun i d => do
                  let w ← load d (i - ws)
                  store d i w) (c - ws) ws d0
              for_up (fun i d => store d i 0) ws 0 d
            else pure d0) = Except.ok dA ∧
      dA.length = d0.length ∧ (∀ w ∈ dA, w < 2 ^ 64) ∧
      ∀ j, bit dA j = (decide (64 * ws ≤ j) && decide (j < 64 * d0.length) &&
        bit d0 (j - 64 * ws)) := by
  by_cases h0 : ws > 0
  · subst hc
    obtain ⟨d1, e1, l1, w1⟩ := shl_move_ok d0 ws h0 hle
    obtain ⟨d2, e2, l2, w2⟩ := zero_fill_ok d1 0 ws (by omega)
    have hw : ∀ j, wd d2 j = if ws ≤ j ∧ j < d0.length then wd d0 (j - ws) else 0 := by
      intro j
      rw [w2 j, w1 j]
      by_cases h1 : j < ws
      · rw [if_pos (by omega), if_neg (by omega)]
      · rw [if_neg (by omega)]
        by_cases h2 : j < d0.length
        · rw [if_pos (by omega), if_pos (by omega)]
        · rw [if_neg (by omega), if_neg (by omega), wd_ge_length (by omega)]
    refine ⟨d2, ?_, by omega, ?_, ?_⟩
    · simp only [h0, ↓reduceIte, e1, ok_bind]
      simpa using e2
    · apply all_lt_of_wd
      intro j
      rw [hw j]
      split
      · exact wd_lt_two_pow hd _
      · norm_num
    · intro j
      unfold bit
      rw [hw]
      by_cases h1 : ws ≤ j / 64 ∧ j / 64 < d0.length
      · rw [if_pos h1]
        have e3 : (j - 64 * ws) / 64 = j / 64 - ws := by omega
        have e4 : (j - 64 * ws) % 64 = j % 64 := by omega
        rw [e3, e4]
        simp [show 64 * ws ≤ j by omega, show j < 64 * d0.length by omega]
      · rw [if_neg h1]
        by_cases h2 : 64 * ws ≤ j
        · simp [show ¬ j < 64 * d0.length by omega]
        · simp [h2]
  · have : ws = 0 := by omega
    subst this
    refine ⟨d0, by simp [pure_eq_ok], rfl, hd, fun j => ?_⟩
    by_cases h2 : j < 64 * d0.length
    · simp [h2]
    · simp [h2, bit_ge_length (Nat.le_of_not_lt h2)]

/-- Sub-word stage of `shl_bitset`, in bits. -/
theorem shl_stage_bits (dA : List Nat) (c bs : Nat) (hc : c = dA.length) (hbs : bs < 64)
    (hd : ∀ w ∈ dA, w < 2 ^ 64) :
    ∃ dB, (if bs > 0 then
              for_down (fun i d => do
                  let w ← load d i
                  let lo ← (if i > 0 then do
                      let v ← load d (i - 1)
                      pure (v >>> (64 - bs))
                    else pure 0)
                  store d i (shl64 w bs ||| lo)) c 0 dA
            else pure dA) = Except.ok dB ∧
      dB.length = dA.length ∧ (∀ w ∈ dB, w < 2 ^ 64) ∧
      ∀ j, bit dB j = (decide (bs ≤ j) && decide (j < 64 * dA.length) && bit dA (j - bs)) := by
  by_cases h0 : bs > 0
  · subst hc
    obtain ⟨d, e1, l1, w1⟩ := shl_bits_ok dA bs
    refine ⟨d, by simp only [h0, ↓reduceIte, e1], l1, ?_, ?_⟩
    · apply all_lt_of_wd
      intro j
      rw [w1 j]
      split
      · exact shl_word_lt dA hd _ _
      · exact wd_lt_two_pow hd _
    · intro j
      by_cases h2 : j < 64 * dA.length
      · unfold bit
        rw [w1, if_pos (by omega), bit_shl_word dA hd bs h0 hbs]
        simp [h2, bit]
      · rw [bit_ge_length (by omega)]
        simp [h2]
  · have : bs = 0 := by omega
    subst this
    refine ⟨dA, by simp [pure_eq_ok], rfl, hd, fun j => ?_⟩
    by_cases h2 : j < 64 * dA.length
    · simp [h2]
    · simp [h2, bit_ge_length (Nat.le_of_not_lt h2)]

/-- Masking stage shared by the shifts. -/
theorem mask_stage {size : Nat} {d : List Nat} (hs : size + 63 < 2 ^ 64)
    (hlen : d.length = (size + 63) / 64) :
    (if size % 64 ≠ 0 then do
        let w ← load d (wrap_sub (chunks_of size) 1)
        store d (wrap_sub (chunks_of size) 1) (w &&& low_mask (size % 64))
      else pure d) = Except.ok (masked size d) := by
  by_cases he : size % 64 = 0
  · simp [he, masked, pure_eq_ok]
  · simp only [ne_eq, he, not_false_eq_true, ↓reduceIte]
    exact mask_step hs hlen he

/-- Left shift within the storage: for a valid bitset and a shift of at most
`chunks` whole words, `shl_bitset` returns, keeps the size and the invariant, and
bit `j` of the result is bit `j - shift` of the argument (0 below `shift`). -/
theorem shl_bitset_ok (bt : cbitset) (shift : Nat) (hv : Valid bt)
    (hle : shift / 64 ≤ bt.data.length) :
    ∃ r, shl_bitset bt shift = .ok r ∧ r.size = bt.size ∧ Valid r ∧
      ∀ j, bit r.data j = (decide (j < bt.size) && decide (shift ≤ j) &&
        bit bt.data (j - shift)) := by
  have hv' := hv
  obtain ⟨hs, hlen, hw, _⟩ := hv
  by_cases h0 : shift = 0 ∨ bt.size = 0
  · refine ⟨bt, by simp [shl_bitset, h0, pure_eq_ok], rfl, hv', fun j => ?_⟩
    by_cases hj : j < bt.size
    · have : shift = 0 := by omega
      simp [hj, this]
    · simp [hj, hv'.bit_ge (Nat.le_of_not_lt hj)]
  · have hc : chunks_of bt.size = bt.data.length := by rw [chunks_of_eq hs, hlen]
    obtain ⟨dA, eA, lA, wA, bA⟩ := shl_stage_words bt.data (chunks_of bt.size) (shift / 64) hc
      (by omega) hw
    obtain ⟨dB, eB, lB, wB, bB⟩ := shl_stage_bits dA (chunks_of bt.size) (shift % 64)
      (by omega) (Nat.mod_lt _ (by norm_num)) wA
    have lB' : dB.length = (bt.size + 63) / 64 := by omega
    have eC := mask_stage hs lB'
    have eD := @normalize_ok ⟨bt.size, masked bt.size dB⟩ hs
      (by rw [masked_length]; exact lB')
    refine ⟨⟨bt.size, masked bt.size dB⟩, ?_, rfl, valid_masked hs lB' wB, fun j => ?_⟩
    · unfold shl_bitset
      rw [if_neg h0]
      dsimp only
      rw [eA, ok_bind, eB, ok_bind, eC, ok_bind, eD]
      simp only
      rw [masked_masked lB' wB]
    · simp only
      rw [bit_masked lB', bB, bA]
      by_cases hj : j < bt.size
      · by_cases h1 : shift ≤ j
        · have e : j - shift % 64 - 64 * (shift / 64) = j - shift := by omega
          rw [e]
          simp [hj, h1, show shift % 64 ≤ j by omega, show j < 64 * dA.length by omega,
            show 64 * (shift / 64) ≤ j - shift % 64 by omega,
            show j - shift % 64 < 64 * bt.data.length by omega]
        · by_cases h2 : shift % 64 ≤ j
          · simp [h1, show ¬ 64 * (shift / 64) ≤ j - shift % 64 by omega]
          · simp [h1, h2]
      · simp [hj]

/-! ## Right shift -/

/-- Word relocation of `shr_bitset`: words move down by `ws` positions. -/
theorem shr_move_ok (d0 : List Nat) (ws : Nat) (hws : 0 < ws) (hle : ws ≤ d0.length) :
    ∃ d, for_up (fun i d => do
            let w ← load d (i + ws)
            store d i w) (d0.length - ws) 0 d0 = .ok d ∧
      d.length = d0.length ∧
      ∀ j, wd d j = if j < d0.length - ws then wd d0 (j + ws) else wd d0 j := by
  have key := for_up_rule (fun i d => do
            let w ← load d (i + ws)
            store d i w)
    (fun i d => d.length = d0.length ∧
      ∀ j, wd d j = if j < i then wd d0 (j + ws) else wd d0 j)
    (d0.length - ws) 0 d0 ?_ ?_
  · obtain ⟨d, h1, h2, h3⟩ := key
    refine ⟨d, h1, h2, fun j => ?_⟩
    rw [h3 j]; simp
  · intro i t _ h2 ⟨hl, hI⟩
    have hi : i < t.length := by omega
    have hi2 : i + ws < t.length := by omega
    refine ⟨t.set i (wd t (i + ws)), ?_, by simp [hl], ?_⟩
    · simp only [load_ok hi2, ok_bind, store_ok _ hi]
    · intro j
      have ha : wd t (i + ws) = wd d0 (i + ws) := by rw [hI, if_neg (by omega)]
      rw [wd_set, ha, hI j]
      by_cases hj : i = j
      · subst hj
        simp [hi]
      · have h3 : ¬ (i = j ∧ i < t.length) := by omega
        rw [if_neg h3]
        by_cases h4 : j < i
        · rw [if_pos h4, if_pos (by omega)]
        · rw [if_neg h4, if_neg (by omega)]
  · refine ⟨rfl, fun j => ?_⟩
    rw [if_neg (by omega)]

/-- Sub-word loop of `shr_bitset`. -/
theorem shr_bits_ok (d2 : List Nat) (bs : Nat) :
    ∃ d, for_up (fun i d => do
            let w ← load d i
            let hi ← (if i + 1 < d2.length then do
                let v ← load d (i + 1)
                pure (shl64 v (64 - bs))
              else pure 0)
            store d i (w >>> bs ||| hi)) d2.length 0 d2 = .ok d ∧
      d.length = d2.length ∧
      ∀ j, wd d j = if j < d2.length then shr_word d2 bs d2.length j else wd d2 j := by
  have key := for_up_rule (fun i d => do
            let w ← load d i
            let hi ← (if i + 1 < d2.length then do
                let v ← load d (i + 1)
                pure (shl64 v (64 - bs))
              else pure 0)
            store d i (w >>> bs ||| hi))
    (fun i d => d.length = d2.length ∧
      ∀ j, wd d j = if j < i then shr_word d2 bs d2.length j else wd d2 j)
    d2.length 0 d2 ?_ ?_
  · obtain ⟨d, h1, h2, h3⟩ := key
    refine ⟨d, h1, h2, fun j => ?_⟩
    rw [h3 j]; simp
  · intro i t _ h2 ⟨hl, hI⟩
    have hi : i < t.length := by omega
    refine ⟨t.set i (shr_word d2 bs d2.length i), ?_, by simp [hl], ?_⟩
    · simp only [load_ok hi, ok_bind]
      by_cases h0 : i + 1 < d2.length
      · have hi2 : i + 1 < t.length := by omega
        simp only [h0, ↓reduceIte, load_ok hi2, ok_bind, pure_eq_ok, store_ok _ hi]
        rw [hI i, hI (i + 1), if_neg (by omega), if_neg (by omega)]
        simp [shr_word, h0]
      · simp only [h0, ↓reduceIte, pure_eq_ok, ok_bind, store_ok _ hi]
        rw [hI i, if_neg (by omega)]
        simp [shr_word, h0]
    · intro j
      rw [wd_set, hI j]
      by_cases hj : i = j
      · subst hj
        simp [hi]
      · have h3 : ¬ (i = j ∧ i < t.length) := by omega
        rw [if_neg h3]
        by_cases h4 : j < i
        · rw [if_pos h4, if_pos (by omega)]
        · rw [if_neg h4, if_neg (by omega)]
  · refine ⟨rfl, fun j => ?_⟩
    rw [if_neg (by omega)]

theorem shr_word_lt (d : List Nat) (hd : ∀ w ∈ d, w < 2 ^ 64) (bs c j : Nat) :
    shr_word d bs c j < 2 ^ 64 := by
  unfold shr_word
  apply Nat.or_lt_two_pow (shr_lt (wd_lt_two_pow hd _) _)
  split
  · exact shl64_lt _ _
  · norm_num

/-- Bits after the sub-word right shift. -/
theorem bit_shr_word (d : List Nat) (hd : ∀ w ∈ d, w < 2 ^ 64) (bs : Nat) (hbs : 0 < bs)
    (hbs2 : bs < 64) (j : Nat) :
    (shr_word d bs d.length (j / 64)).testBit (j % 64) = bit d (j + bs) := by
  unfold shr_word
  rw [Nat.testBit_or, Nat.testBit_shiftRight]
  have hk : j % 64 < 64 := Nat.mod_lt _ (by norm_num)
  by_cases h1 : bs + j % 64 < 64
  · -- the bit comes from the same word
    have e1 : (j + bs) / 64 = j / 64 := by omega
    have e2 : (j + bs) % 64 = bs + j % 64 := by omega
    have e3 : (if j / 64 + 1 < d.length then shl64 (wd d (j / 64 + 1)) (64 - bs) else 0).testBit
        (j % 64) = false := by
      split
      · rw [testBit_shl64]
        simp [show ¬ 64 - bs ≤ j % 64 by omega]
      · simp
    rw [e3]
    unfold bit
    rw [e1, e2]
    simp
  · have e0 : (wd d (j / 64)).testBit (bs + j % 64) = false :=
      testBit_ge_64 (wd_lt_two_pow hd _) (by omega)
    have e1 : (j + bs) / 64 = j / 64 + 1 := by omega
    have e2 : (j + bs) % 64 = j % 64 - (64 - bs) := by omega
    rw [e0]
    unfold bit
    rw [e1, e2]
    by_cases h2 : j / 64 + 1 < d.length
    · rw [if_pos h2, testBit_shl64]
      simp [hk, show 64 - bs ≤ j % 64 by omega]
    · rw [if_neg h2, wd_ge_length (by omega)]
      simp

/-- Whole-word stage of `shr_bitset`, in bits. -/
theorem shr_stage_words (d0 : List Nat) (c ws : Nat) (hc : c = d0.length) (hle : ws ≤ c)
    (hc2 : c < 2 ^ 64) (hd : ∀ w ∈ d0, w < 2 ^ 64) :
    ∃ dA, (if ws > 0 then do
              let d ← for_up (fun i d => do
                  let w ← load d (i + ws)
                  store d i w) (c - ws) 0 d0
              for_up (fun i d => store d i 0) (c - wrap_sub c ws) (wrap_sub c ws) d
            else pure d0) = Except.ok dA ∧
      dA.length = d0.length ∧ (∀ w ∈ dA, w < 2 ^ 64) ∧
      ∀ j, bit dA j = bit d0 (j + 64 * ws) := by
  by_cases h0 : ws > 0
  · subst hc
    obtain ⟨d1, e1, l1, w1⟩ := shr_move_ok d0 ws h0 hle
    have hsub : wrap_sub d0.length ws = d0.length - ws := wrap_sub_eq hle hc2
    obtain ⟨d2, e2, l2, w2⟩ := zero_fill_ok d1 (d0.length - ws) ws (by omega)
    have hw : ∀ j, wd d2 j = wd d0 (j + ws) := by
      intro j
      rw [w2 j, w1 j]
      by_cases h1 : j < d0.length - ws
      · rw [if_neg (by omega), if_pos h1]
      · by_cases h2 : j < d0.length
        · rw [if_pos (by omega), wd_ge_length (by omega)]
        · rw [if_neg (by omega), if_neg h1, wd_ge_length (by omega), wd_ge_length (by omega)]
    refine ⟨d2, ?_, by omega, ?_, ?_⟩
    · simp only [h0, ↓reduceIte, e1, ok_bind, hsub]
      have : d0.length - (d0.length - ws) = ws := by omega
      rw [this]
      exact e2
    · apply all_lt_of_wd
      intro j
      rw [hw j]
      exact wd_lt_two_pow hd _
    · intro j
      unfold bit
      rw [hw]
      have e3 : (j + 64 * ws) / 64 = j / 64 + ws := by omega
      have e4 : (j + 64 * ws) % 64 = j % 64 := by omega
      rw [e3, e4]
  · have : ws = 0 := by omega
    subst this
    exact ⟨d0, by simp [pure_eq_ok], rfl, hd, fun j => by simp⟩

/-- Sub-word stage of `shr_bitset`, in bits. -/
theorem shr_stage_bits (dA : List Nat) (c bs : Nat) (hc : c = dA.length) (hbs : bs < 64)
    (hd : ∀ w ∈ dA, w < 2 ^ 64) :
    ∃ dB, (if bs > 0 then
              for_up (fun i d => do
                  let w ← load d i
                  let hi ← (if i + 1 < c then do
                      let v ← load d (i + 1)
                      pure (shl64 v (64 - bs))
                    else pure 0)
                  store d i (w >>> bs ||| hi)) c 0 dA
            else pure dA) = Except.ok dB ∧
      dB.length = dA.length ∧ (∀ w ∈ dB, w < 2 ^ 64) ∧
      ∀ j, bit dB j = bit dA (j + bs) := by
  by_cases h0 : bs > 0
  · subst hc
    obtain ⟨d, e1, l1, w1⟩ := shr_bits_ok dA bs
    refine ⟨d, by simp only [h0, ↓reduceIte, e1], l1, ?_, ?_⟩
    · apply all_lt_of_wd
      intro j
      rw [w1 j]
      split
      · exact shr_word_lt dA hd _ _ _
      · exact wd_lt_two_pow hd _
    · intro j
      by_cases h2 : j < 64 * dA.length
      · unfold bit
        rw [w1, if_pos (by omega), bit_shr_word dA hd bs h0 hbs]
        rfl
      · rw [bit_ge_length (by omega), bit_ge_length (by omega)]
  · have : bs = 0 := by omega
    subst this
    exact ⟨dA, by simp [pure_eq_ok], rfl, hd, fun j => by simp⟩

/-- Right shift within the storage: for a valid bitset and a shift of at most
`chunks` whole words, `shr_bitset` returns, keeps the size and the invariant, and
bit `j` of the result is bit `j + shift` of the argument. -/
theorem shr_bitset_ok (bt : cbitset) (shift : Nat) (hv : Valid bt)
    (hle : shift / 64 ≤ bt.data.length) :
    ∃ r, shr_bitset bt shift = .ok r ∧ r.size = bt.size ∧ Valid r ∧
      ∀ j, bit r.data j = (decide (j < bt.size) && bit bt.data (j + shift)) := by
  have hv' := hv
  obtain ⟨hs, hlen, hw, _⟩ := hv
  by_cases h0 : shift = 0 ∨ bt.size = 0
  · refine ⟨bt, by simp [shr_bitset, h0, pure_eq_ok], rfl, hv', fun j => ?_⟩
    by_cases hj : j < bt.size
    · have : shift = 0 := by omega
      simp [hj, this]
    · simp [hj, hv'.bit_ge (Nat.le_of_not_lt hj)]
  · have hc : chunks_of bt.size = bt.data.length := by rw [chunks_of_eq hs, hlen]
    obtain ⟨dA, eA, lA, wA, bA⟩ := shr_stage_words bt.data (chunks_of bt.size) (shift / 64) hc
      (by omega) (by omega) hw
    obtain ⟨dB, eB, lB, wB, bB⟩ := shr_stage_bits dA (chunks_of bt.size) (shift % 64)
      (by omega) (Nat.mod_lt _ (by norm_num)) wA
    have lB' : dB.length = (bt.size + 63) / 64 := by omega
    have eC := mask_stage hs lB'
    have eD := @normalize_ok ⟨bt.size, masked bt.size dB⟩ hs
      (by rw [masked_length]; exact lB')
    refine ⟨⟨bt.size, masked bt.size dB⟩, ?_, rfl, valid_masked hs lB' wB, fun j => ?_⟩
    · unfold shr_bitset
      rw [if_neg h0]
      dsimp only
      rw [eA, ok_bind, eB, ok_bind, eC, ok_bind, eD]
      simp only
      rw [masked_masked lB' wB]
    · simp only
      rw [bit_masked lB', bB, bA]
      have e : j + shift % 64 + 64 * (shift / 64) = j + shift := by omega
      rw [e]

/-! ## Shifts below `size` (C4, C5) -/

/-- C4: for a bitset satisfying the padding invariant and a shift `n < size`,
`shl_bitset` returns a bitset of the same size whose bit `i < size` is bit `i - n` of
the argument when `i >= n`, and 0 when `i < n`. -/
theorem shl_bitset_logical_shift (bt : cbitset) (n : Nat) (hv : Valid bt) (hn : n < bt.size) :
    ∃ r, shl_bitset bt n = .ok r ∧ r.size = bt.size ∧
      ∀ i, i < bt.size →
        get_bitset r i = if n ≤ i then get_bitset bt (i - n) else .ok 0 := by
  have hlen := hv.2.1
  obtain ⟨r, e, hsz, hvr, hb⟩ := shl_bitset_ok bt n hv (by omega)
  refine ⟨r, e, hsz, fun i hi => ?_⟩
  rw [get_bitset_ok (by omega) (by rw [hvr.2.1])]
  rw [hb i]
  by_cases h : n ≤ i
  · rw [if_pos h, get_bitset_ok (by omega) hlen]
    simp [hi, h]
  · rw [if_neg h]
    simp [h]

/-- Concrete instance of C4: 130 bits over three words, shifted by 65. -/
theorem shl_bitset_logical_shift_witness :
    Valid ⟨130, [1, 2, 3]⟩ ∧ 65 < (cbitset.mk 130 [1, 2, 3]).size ∧
    ∃ r, shl_bitset ⟨130, [1, 2, 3]⟩ 65 = .ok r ∧ r.size = (cbitset.mk 130 [1, 2, 3]).size ∧
      ∀ i, i < (cbitset.mk 130 [1, 2, 3]).size →
        get_bitset r i =
          if 65 ≤ i then get_bitset ⟨130, [1, 2, 3]⟩ (i - 65) else .ok 0 :=
  ⟨by decide, by decide, shl_bitset_logical_shift ⟨130, [1, 2, 3]⟩ 65 (by decide) (by decide)⟩

/-- C5: for a bitset satisfying the padding invariant and a shift `n < size`,
`shr_bitset` returns a bitset of the same size whose bit `i < size` is bit `i + n` of
the argument when `i + n < size`, and 0 otherwise. -/
theorem shr_bitset_logical_shift (bt : cbitset) (n : Nat) (hv : Valid bt) (hn : n < bt.size) :
    ∃ r, shr_bitset bt n = .ok r ∧ r.size = bt.size ∧
      ∀ i, i < bt.size →
        get_bitset r i = if i + n < bt.size then get_bitset bt (i + n) else .ok 0 := by
  have hlen := hv.2.1
  obtain ⟨r, e, hsz, hvr, hb⟩ := shr_bitset_ok bt n hv (by omega)
  refine ⟨r, e, hsz, fun i hi => ?_⟩
  rw [get_bitset_ok (by omega) (by rw [hvr.2.1])]
  rw [hb i]
  by_cases h : i + n < bt.size
  · rw [if_pos h, get_bitset_ok h hlen]
    simp [hi]
  · rw [if_neg h, hv.bit_ge (Nat.le_of_not_lt h)]
    simp

/-- Concrete instance of C5: 130 bits over three words, shifted by 65. -/
theorem shr_bitset_logical_shift_witness :
    Valid ⟨130, [1, 2, 3]⟩ ∧ 65 < (cbitset.mk 130 [1, 2, 3]).size ∧
    ∃ r, shr_bitset ⟨130, [1, 2, 3]⟩ 65 = .ok r ∧ r.size = (cbitset.mk 130 [1, 2, 3]).size ∧
      ∀ i, i < (cbitset.mk 130 [1, 2, 3]).size →
        get_bitset r i =
          if i + 65 < (cbitset.mk 130 [1, 2, 3]).size then
            get_bitset ⟨130, [1, 2, 3]⟩ (i + 65) else .ok 0 :=
  ⟨by decide, by decide, shr_bitset_logical_shift ⟨130, [1, 2, 3]⟩ 65 (by decide) (by decide)⟩

/-! ## Shifts of at least `size` (C6, C7) -/

/-- C6 at the input `size = 1`, `data = [1]`, `shift = 128`: `word_shift = 2` exceeds
the one chunk, the start `chunks - word_shift` of the zero-fill loop wraps around in
`size_t`, no word is cleared, and `shr_bitset` returns the bitset unchanged with bit 0
still set, so `bitset_none` returns 0. -/
theorem shr_bitset_large_shift_keeps_bits :
    Valid ⟨1, [1]⟩ ∧ shr_bitset ⟨1, [1]⟩ 128 = .ok ⟨1, [1]⟩ ∧
      get_bitset ⟨1, [1]⟩ 0 = .ok 1 ∧ bitset_none ⟨1, [1]⟩ = .ok 0 := by
  decide

/-- Right shifts by at least `size` that stay within `chunks` whole words do clear
the bitset. -/
theorem shr_bitset_clears_within_storage (bt : cbitset) (n : Nat) (hv : Valid bt)
    (hn : bt.size ≤ n) (hle : n / 64 ≤ bt.data.length) :
    ∃ r, shr_bitset bt n = .ok r ∧ r.size = bt.size ∧ ∀ j, bit r.data j = false := by
  obtain ⟨r, e, hsz, _, hb⟩ := shr_bitset_ok bt n hv hle
  refine ⟨r, e, hsz, fun j => ?_⟩
  rw [hb j, hv.bit_ge (by omega)]
  simp

/-- C7 at the input `size = 1`, `data = [1]`, `shift = 128`: `word_shift = 2` exceeds
the one chunk and the zero-fill loop `for (i = 0; i < word_shift; i++) data[i] = 0`
writes `data[1]`, outside the storage. -/
theorem shl_bitset_large_shift_out_of_bounds :
    Valid ⟨1, [1]⟩ ∧ shl_bitset ⟨1, [1]⟩ 128 = .error .outOfBounds := by
  decide

/-- Left shifts by at least `size` that stay within `chunks` whole words do clear
the bitset. -/
theorem shl_bitset_clears_within_storage (bt : cbitset) (n : Nat) (hv : Valid bt)
    (hn : bt.size ≤ n) (hle : n / 64 ≤ bt.data.length) :
    ∃ r, shl_bitset bt n = .ok r ∧ r.size = bt.size ∧ ∀ j, bit r.data j = false := by
  obtain ⟨r, e, hsz, _, hb⟩ := shl_bitset_ok bt n hv hle
  refine ⟨r, e, hsz, fun j => ?_⟩
  rw [hb j]
  by_cases h1 : j < bt.size
  · simp [show ¬ n ≤ j by omega]
  · simp [h1]

/-! ## Trailing zeros and the word scan -/

theorem ctz_bits_spec : ∀ (n x : Nat), (∃ k, k < n ∧ x.testBit k = true) →
    ctz_bits n x < n ∧ x.testBit (ctz_bits n x) = true ∧
      ∀ k, k < ctz_bits n x → x.testBit k = false := by
  intro n
  induction n with
  | zero => intro x ⟨k, hk, _⟩; omega
  | succ n ih =>
    intro x ⟨k, hk, hb⟩
    unfold ctz_bits
    by_cases h : x % 2 = 1
    · rw [if_pos h]
      refine ⟨by omega, ?_, fun k hk => by omega⟩
      rw [Nat.testBit_zero]; simp [h]
    · rw [if_neg h]
      have h0 : x.testBit 0 = false := by rw [Nat.testBit_zero]; simp [h]
      have hk0 : k ≠ 0 := by
        intro e; rw [e, h0] at hb; simp at hb
      obtain ⟨k', rfl⟩ := Nat.exists_eq_succ_of_ne_zero hk0
      rw [Nat.testBit_succ] at hb
      obtain ⟨h1, h2, h3⟩ := ih (x / 2) ⟨k', by omega, hb⟩
      refine ⟨by omega, ?_, ?_⟩
      · rw [Nat.add_comm, Nat.testBit_succ]; exact h2
      · intro j hj
        cases j with
        | zero => exact h0
        | succ j => rw [Nat.testBit_succ]; exact h3 j (by omega)

/-- A nonzero 64-bit word has a set bit. -/
theorem exists_testBit {x : Nat} (hx : x < 2 ^ 64) (h0 : x ≠ 0) :
    ∃ k, k < 64 ∧ x.testBit k = true := by
  by_contra hne
  apply h0
  apply word_ext hx (by norm_num)
  intro k hk
  rw [Nat.zero_testBit]
  by_contra hb
  exact hne ⟨k, hk, by simpa using hb⟩

/-- The builtin on a nonzero 64-bit word: the index of its lowest set bit. -/
theorem ctzll_spec {x : Nat} (hx : x < 2 ^ 64) (h0 : x ≠ 0) :
    ctzll x < 64 ∧ x.testBit (ctzll x) = true ∧ ∀ k, k < ctzll x → x.testBit k = false :=
  ctz_bits_spec 64 x (exists_testBit hx h0)

theorem bit_false_of_word_zero {d : List Nat} {q : Nat} (h : wd d q = 0) {j : Nat}
    (hj : j / 64 = q) : bit d j = false := by
  unfold bit; rw [hj, h]; simp

/-- The word scan from word `i` on returns the lowest set bit at or above `64 * i`. -/
theorem scan_from_spec (bt : cbitset) (hv : Valid bt) :
    ∀ (n i : Nat), i + n = bt.data.length →
      ∃ r, scan_from bt n i = .ok r ∧ IsNext bt (64 * i) r := by
  intro n
  induction n with
  | zero =>
    intro i hi
    refine ⟨-1, rfl, Or.inl ⟨rfl, fun j hj => bit_ge_length (by omega)⟩⟩
  | succ n ih =>
    intro i hi
    have hlt : i < bt.data.length := by omega
    unfold scan_from
    rw [load_ok hlt, ok_bind]
    by_cases hw : wd bt.data i = 0
    · obtain ⟨r, e, hr⟩ := ih (i + 1) (by omega)
      refine ⟨r, by simp [hw, e], ?_⟩
      have hz : ∀ j, 64 * i ≤ j → j < 64 * (i + 1) → bit bt.data j = false :=
        fun j h1 h2 => bit_false_of_word_zero hw (by omega)
      rcases hr with ⟨h1, h2⟩ | ⟨m, h1, h2, h3, h4, h5⟩
      · left
        refine ⟨h1, fun j hj => ?_⟩
        by_cases hj2 : j < 64 * (i + 1)
        · exact hz j hj hj2
        · exact h2 j (by omega)
      · right
        refine ⟨m, h1, by omega, h3, h4, fun j hj hjm => ?_⟩
        by_cases hj2 : j < 64 * (i + 1)
        · exact hz j hj hj2
        · exact h5 j (by omega) hjm
    · obtain ⟨c1, c2, c3⟩ := ctzll_spec (wd_lt_two_pow hv.2.2.1 i) hw
      have hb : bit bt.data (64 * i + ctzll (wd bt.data i)) = true := by
        rw [bit_eq _ _ _ c1]; exact c2
      have hsz : 64 * i + ctzll (wd bt.data i) < bt.size := by
        by_contra hge
        rw [hv.bit_ge (Nat.le_of_not_lt hge)] at hb
        exact Bool.false_ne_true hb
      refine ⟨((64 * i + ctzll (wd bt.data i) : Nat) : Int), ?_, Or.inr
        ⟨_, rfl, by omega, hsz, hb, fun j h1 h2 => ?_⟩⟩
      · simp only [ne_eq, hw, not_false_eq_true, ↓reduceIte, pure_eq_ok]
        have : ((i : Int) * 64 + (ctzll (wd bt.data i) : Int)) =
            ((64 * i + ctzll (wd bt.data i) : Nat) : Int) := by push_cast; ring
        rw [this, if_pos (by exact_mod_cast hsz)]
      · have e1 : j = 64 * i + j % 64 := by omega
        rw [e1, bit_eq _ _ _ (Nat.mod_lt _ (by norm_num))]
        exact c3 _ (by omega)

/-! ## `bitset_find_first` and `bitset_find_next` (C8, C9) -/

theorem find_first_isNext (bt : cbitset) (hv : Valid bt) (hs : bt.size ≤ INT_MAX) :
    ∃ r, bitset_find_first bt = .ok r ∧ IsNext bt 0 r := by
  unfold bitset_find_first
  rw [if_pos hs, chunks_of_eq hv.1, ← hv.2.1]
  exact scan_from_spec bt hv bt.data.length 0 (by omega)

theorem to_int_small {n : Nat} (h : n < 2 ^ 31) : to_int n = (n : Int) := by
  unfold to_int
  have : n % 2 ^ 32 = n := by omega
  rw [this, if_pos h]

theorem testBit_high_mask (b k : Nat) :
    (shl64 (2 ^ 64 - 1) b).testBit k = (decide (k < 64) && decide (b ≤ k)) := by
  rw [testBit_shl64, Nat.testBit_two_pow_sub_one]
  by_cases h1 : k < 64
  · by_cases h2 : b ≤ k
    · simp [h1, h2, show k - b < 64 by omega]
    · simp [h1, h2]
  · simp [h1]

theorem find_next_isNext (bt : cbitset) (prev : Nat) (hv : Valid bt) (h1 : 1 ≤ bt.size)
    (hs : bt.size ≤ INT_MAX) :
    ∃ r, bitset_find_next bt prev = .ok r ∧ IsNext bt (prev + 1) r := by
  have hs' : bt.size ≤ 2147483647 := hs
  have hsub : wrap_sub bt.size 1 = bt.size - 1 := wrap_sub_eq h1 (by omega)
  unfold bitset_find_next
  rw [if_neg (by simpa using hs), hsub]
  by_cases hp : prev ≥ bt.size - 1
  · rw [if_pos hp]
    exact ⟨-1, rfl, Or.inl ⟨rfl, fun j hj => hv.bit_ge (by omega)⟩⟩
  · rw [if_neg hp]
    have hnext : to_int (size_t (prev + 1)) = ((prev + 1 : Nat) : Int) := by
      have : size_t (prev + 1) = prev + 1 := by unfold size_t; omega
      rw [this, to_int_small (by omega)]
    have hchunk : Int.tdiv ((prev + 1 : Nat) : Int) 64 = (((prev + 1) / 64 : Nat) : Int) := rfl
    have hbit : Int.tmod ((prev + 1 : Nat) : Int) 64 = (((prev + 1) % 64 : Nat) : Int) := rfl
    simp only [hnext, hchunk, hbit, Int.toNat_ofNat]
    rw [if_neg (by omega)]
    have hlen := hv.2.1
    have hq : (prev + 1) / 64 < bt.data.length := by omega
    rw [load_ok hq, ok_bind]
    have hxlt : wd bt.data ((prev + 1) / 64) &&& shl64 (2 ^ 64 - 1) ((prev + 1) % 64) < 2 ^ 64 :=
      Nat.lt_of_le_of_lt Nat.and_le_left (wd_lt_two_pow hv.2.2.1 _)
    have hxbit : ∀ k, k < 64 →
        (wd bt.data ((prev + 1) / 64) &&& shl64 (2 ^ 64 - 1) ((prev + 1) % 64)).testBit k =
          (decide ((prev + 1) % 64 ≤ k) && bit bt.data (64 * ((prev + 1) / 64) + k)) := by
      intro k hk
      rw [Nat.testBit_and, testBit_high_mask, bit_eq _ _ _ hk]
      simp [hk, Bool.and_comm]
    by_cases hx : wd bt.data ((prev + 1) / 64) &&& shl64 (2 ^ 64 - 1) ((prev + 1) % 64) = 0
    · -- nothing left in the word of `next`: the scan continues with the next word
      obtain ⟨r, e, hr⟩ := scan_from_spec bt hv (bt.data.length - ((prev + 1) / 64 + 1))
        ((prev + 1) / 64 + 1) (by omega)
      have hz : ∀ j, prev + 1 ≤ j → j < 64 * ((prev + 1) / 64 + 1) → bit bt.data j = false := by
        intro j hj1 hj2
        have := hxbit (j % 64) (Nat.mod_lt _ (by norm_num))
        rw [hx, Nat.zero_testBit] at this
        have e1 : 64 * ((prev + 1) / 64) + j % 64 = j := by omega
        rw [e1] at this
        simpa [show (prev + 1) % 64 ≤ j % 64 by omega] using this.symm
      refine ⟨r, ?_, ?_⟩
      · simp only [ne_eq, hx, not_true_eq_false, ↓reduceIte]
        rw [chunks_of_eq hv.1, ← hlen]
        exact e
      · rcases hr with ⟨a1, a2⟩ | ⟨m, a1, a2, a3, a4, a5⟩
        · left
          refine ⟨a1, fun j hj => ?_⟩
          by_cases hj2 : j < 64 * ((prev + 1) / 64 + 1)
          · exact hz j hj hj2
          · exact a2 j (by omega)
        · right
          refine ⟨m, a1, by omega, a3, a4, fun j hj hjm => ?_⟩
          by_cases hj2 : j < 64 * ((prev + 1) / 64 + 1)
          · exact hz j hj hj2
          · exact a5 j (by omega) hjm
    · -- the word of `next` holds the answer
      obtain ⟨c1, c2, c3⟩ := ctzll_spec hxlt hx
      have hb := (hxbit _ c1).symm
      rw [c2, Bool.and_eq_true, decide_eq_true_eq] at hb
      obtain ⟨hb1, hb2⟩ := hb
      have hsz : 64 * ((prev + 1) / 64) +
          ctzll (wd bt.data ((prev + 1) / 64) &&& shl64 (2 ^ 64 - 1) ((prev + 1) % 64))
            < bt.size := by
        by_contra hge
        rw [hv.bit_ge (Nat.le_of_not_lt hge)] at hb2
        exact Bool.false_ne_true hb2
      refine ⟨((64 * ((prev + 1) / 64) +
          ctzll (wd bt.data ((prev + 1) / 64) &&& shl64 (2 ^ 64 - 1) ((prev + 1) % 64)) : Nat)
            : Int), ?_, Or.inr ⟨_, rfl, by omega, hsz, hb2, fun j hj1 hj2 => ?_⟩⟩
      · simp only [ne_eq, hx, not_false_eq_true, ↓reduceIte, pure_eq_ok]
        have : ((((prev + 1) / 64 : Nat) : Int) * 64 +
            (ctzll (wd bt.data ((prev + 1) / 64) &&& shl64 (2 ^ 64 - 1) ((prev + 1) % 64)) : Int))
            = ((64 * ((prev + 1) / 64) +
              ctzll (wd bt.data ((prev + 1) / 64) &&& shl64 (2 ^ 64 - 1) ((prev + 1) % 64)) : Nat)
                : Int) := by push_cast; ring
        rw [this, if_pos (by exact_mod_cast hsz)]
      · have hk : j % 64 < 64 := Nat.mod_lt _ (by norm_num)
        have := hxbit (j % 64) hk
        rw [c3 _ (by omega)] at this
        have e1 : 64 * ((prev + 1) / 64) + j % 64 = j := by omega
        rw [e1] at this
        simpa [show (prev + 1) % 64 ≤ j % 64 by omega] using this.symm

/-- Below `size`, `get_bitset` returns 1 exactly on set bits. -/
theorem get_bitset_one {bt : cbitset} (hv : Valid bt) {i : Nat} (hi : i < bt.size)
    (hb : bit bt.data i = true) : get_bitset bt i = .ok 1 := by
  rw [get_bitset_ok hi hv.2.1, hb]; rfl

/-- Below `size`, `get_bitset` returns 0 exactly on clear bits. -/
theorem get_bitset_zero {bt : cbitset} (hv : Valid bt) {i : Nat} (hi : i < bt.size)
    (hb : bit bt.data i = false) : get_bitset bt i = .ok 0 := by
  rw [get_bitset_ok hi hv.2.1, hb]; rfl

theorem words_zero_of_bits {d : List Nat} (hd : ∀ w ∈ d, w < 2 ^ 64)
    (h : ∀ j, bit d j = false) : ∀ w ∈ d, w = 0 := by
  intro w hw
  obtain ⟨i, hi⟩ := List.mem_iff_get.mp hw
  rw [← hi, ← wd_lt_length i.2]
  apply word_ext (wd_lt_two_pow hd _) (by norm_num)
  intro k hk
  rw [← bit_eq d _ k hk, h, Nat.zero_testBit]

/-- C8: for a bitset satisfying the padding invariant with `size <= INT_MAX`,
`bitset_find_first` returns either `-1`, and then no bit below `size` is set and
every word is zero (so the check `idx < size` has not discarded a found bit), or the
least index `m < size` whose bit is 1. -/
theorem bitset_find_first_least (bt : cbitset) (hv : Valid bt) (hs : bt.size ≤ INT_MAX) :
    ∃ r, bitset_find_first bt = .ok r ∧
      ((r = -1 ∧ (∀ i, i < bt.size → get_bitset bt i = .ok 0) ∧ ∀ w ∈ bt.data, w = 0) ∨
       (∃ m : Nat, r = (m : Int) ∧ m < bt.size ∧ get_bitset bt m = .ok 1 ∧
          ∀ i, i < m → get_bitset bt i = .ok 0)) := by
  obtain ⟨r, e, hr⟩ := find_first_isNext bt hv hs
  refine ⟨r, e, ?_⟩
  rcases hr with ⟨a1, a2⟩ | ⟨m, a1, _, a3, a4, a5⟩
  · left
    exact ⟨a1, fun i hi => get_bitset_zero hv hi (a2 i (Nat.zero_le _)),
      words_zero_of_bits hv.2.2.1 (fun j => a2 j (Nat.zero_le _))⟩
  · right
    exact ⟨m, a1, a3, get_bitset_one hv a3 a4,
      fun i hi => get_bitset_zero hv (by omega) (a5 i (Nat.zero_le _) hi)⟩

/-- Concrete instance of C8: the lowest set bit of a 130-bit bitset is bit 65. -/
theorem bitset_find_first_least_witness :
    Valid ⟨130, [0, 2, 3]⟩ ∧ (cbitset.mk 130 [0, 2, 3]).size ≤ INT_MAX ∧
    ∃ r, bitset_find_first ⟨130, [0, 2, 3]⟩ = .ok r ∧
      ((r = -1 ∧ (∀ i, i < (cbitset.mk 130 [0, 2, 3]).size →
          get_bitset ⟨130, [0, 2, 3]⟩ i = .ok 0) ∧
          ∀ w ∈ (cbitset.mk 130 [0, 2, 3]).data, w = 0) ∨
       (∃ m : Nat, r = (m : Int) ∧ m < (cbitset.mk 130 [0, 2, 3]).size ∧
          get_bitset ⟨130, [0, 2, 3]⟩ m = .ok 1 ∧
          ∀ i, i < m → get_bitset ⟨130, [0, 2, 3]⟩ i = .ok 0)) :=
  ⟨by decide, by decide, bitset_find_first_least ⟨130, [0, 2, 3]⟩ (by decide) (by decide)⟩

/-- C9: for a bitset satisfying the padding invariant with `1 <= size <= INT_MAX`
and every `prev_index`, `bitset_find_next` returns either `-1`, and then no bit with
index in `(prev_index, size)` is set, or the least index `m` with
`prev_index < m < size` whose bit is 1. -/
theorem bitset_find_next_least (bt : cbitset) (prev_index : Nat) (hv : Valid bt)
    (h1 : 1 ≤ bt.size) (hs : bt.size ≤ INT_MAX) :
    ∃ r, bitset_find_next bt prev_index = .ok r ∧
      ((r = -1 ∧ ∀ j, prev_index < j → j < bt.size → get_bitset bt j = .ok 0) ∨
       (∃ m : Nat, r = (m : Int) ∧ prev_index < m ∧ m < bt.size ∧ get_bitset bt m = .ok 1 ∧
          ∀ j, prev_index < j → j < m → get_bitset bt j = .ok 0)) := by
  obtain ⟨r, e, hr⟩ := find_next_isNext bt prev_index hv h1 hs
  refine ⟨r, e, ?_⟩
  rcases hr with ⟨a1, a2⟩ | ⟨m, a1, a2, a3, a4, a5⟩
  · left
    exact ⟨a1, fun j hj hj2 => get_bitset_zero hv hj2 (a2 j (by omega))⟩
  · right
    exact ⟨m, a1, by omega, a3, get_bitset_one hv a3 a4,
      fun j hj hj2 => get_bitset_zero hv (by omega) (a5 j (by omega) hj2)⟩

/-- Concrete instance of C9: after bit 65 of a 130-bit bitset the next set bit is 128. -/
theorem bitset_find_next_least_witness :
    Valid ⟨130, [0, 2, 3]⟩ ∧ 1 ≤ (cbitset.mk 130 [0, 2, 3]).size ∧
    (cbitset.mk 130 [0, 2, 3]).size ≤ INT_MAX ∧
    ∃ r, bitset_find_next ⟨130, [0, 2, 3]⟩ 65 = .ok r ∧
      ((r = -1 ∧ ∀ j, 65 < j → j < (cbitset.mk 130 [0, 2, 3]).size →
          get_bitset ⟨130, [0, 2, 3]⟩ j = .ok 0) ∨
       (∃ m : Nat, r = (m : Int) ∧ 65 < m ∧ m < (cbitset.mk 130 [0, 2, 3]).size ∧
          get_bitset ⟨130, [0, 2, 3]⟩ m = .ok 1 ∧
          ∀ j, 65 < j → j < m → get_bitset ⟨130, [0, 2, 3]⟩ j = .ok 0)) :=
  ⟨by decide, by decide, by decide,
    bitset_find_next_least ⟨130, [0, 2, 3]⟩ 65 (by decide) (by decide) (by decide)⟩

/-! ## Enumerating the set bits (C10) -/

theorem collect_from_spec (bt : cbitset) (hv : Valid bt) (hs : bt.size ≤ INT_MAX) :
    ∀ (fuel a : Nat) (r : Int), IsNext bt a r → bt.size ≤ a + fuel →
      ∃ l : List Nat, collect_from bt fuel r = .ok (some (l.map Int.ofNat)) ∧
        l.Pairwise (fun x y => x < y) ∧
        ∀ i, i ∈ l ↔ a ≤ i ∧ i < bt.size ∧ bit bt.data i = true := by
  intro fuel
  induction fuel with
  | zero =>
    intro a r hr hle
    rcases hr with ⟨a1, a2⟩ | ⟨m, _, a2, a3, _, _⟩
    · refine ⟨[], by simp [collect_from, a1], List.Pairwise.nil, fun i => ?_⟩
      constructor
      · intro h; cases h
      · intro ⟨h1, _, h3⟩; rw [a2 i h1] at h3; exact absurd h3 Bool.false_ne_true
    · omega
  | succ fuel ih =>
    intro a r hr hle
    rcases hr with ⟨a1, a2⟩ | ⟨m, a1, a2, a3, a4, a5⟩
    · refine ⟨[], by simp [collect_from, a1], List.Pairwise.nil, fun i => ?_⟩
      constructor
      · intro h; cases h
      · intro ⟨h1, _, h3⟩; rw [a2 i h1] at h3; exact absurd h3 Bool.false_ne_true
    · obtain ⟨r', e', hr'⟩ := find_next_isNext bt m hv (by omega) hs
      obtain ⟨l', el, hp, hm⟩ := ih (m + 1) r' hr' (by omega)
      refine ⟨m :: l', ?_, ?_, fun i => ?_⟩
      · have hne : r ≠ -1 := by rw [a1]; omega
        unfold collect_from
        rw [if_neg hne, a1, Int.toNat_ofNat, e', ok_bind, el, ok_bind]
        rfl
      · rw [List.pairwise_cons]
        exact ⟨fun x hx => by have := (hm x).mp hx; omega, hp⟩
      · rw [List.mem_cons, hm i]
        constructor
        · rintro (h | ⟨h1, h2, h3⟩)
          · rw [h]; exact ⟨a2, a3, a4⟩
          · exact ⟨by omega, h2, h3⟩
        · rintro ⟨h1, h2, h3⟩
          by_cases him : i = m
          · left; exact him
          · right
            refine ⟨?_, h2, h3⟩
            by_contra hlt
            have := a5 i h1 (by omega)
            rw [this] at h3
            exact absurd h3 Bool.false_ne_true

/-- The chain of `bitset_find_first` / `bitset_find_next` results is the increasing
list of the set bits. -/
theorem set_bit_chain_spec (bt : cbitset) (hv : Valid bt) (hs : bt.size ≤ INT_MAX)
    (fuel : Nat) (hf : bt.size ≤ fuel) :
    ∃ l : List Nat, set_bit_chain bt fuel = .ok (some (l.map Int.ofNat)) ∧
      l.Pairwise (fun x y => x < y) ∧
      ∀ i, i ∈ l ↔ i < bt.size ∧ bit bt.data i = true := by
  obtain ⟨r, e, hr⟩ := find_first_isNext bt hv hs
  obtain ⟨l, el, hp, hm⟩ := collect_from_spec bt hv hs fuel 0 r hr (by omega)
  refine ⟨l, ?_, hp, fun i => ?_⟩
  · unfold set_bit_chain
    rw [e, ok_bind, el]
  · rw [hm i]; simp

/-! ### Population count -/

theorem popcount_bits_eq : ∀ (n x : Nat),
    popcount_bits n x = List.countP (fun k => x.testBit k) (List.range n) := by
  intro n
  induction n with
  | zero => intro x; rfl
  | succ n ih =>
    intro x
    unfold popcount_bits
    rw [ih (x / 2), Nat.add_comm n 1, List.range_add, List.countP_append, List.countP_map]
    have h1 : List.countP (fun k => x.testBit k) (List.range 1) = x % 2 := by
      have hr : List.range 1 = [0] := rfl
      rw [hr]
      simp only [List.countP_cons, List.countP_nil, Nat.testBit_zero]
      rcases Nat.mod_two_eq_zero_or_one x with h | h <;> simp [h]
    rw [h1]
    congr 1
    apply List.countP_congr
    intro k _
    simp only [Function.comp]
    rw [Nat.add_comm 1 k, Nat.testBit_succ]

theorem countP_le_length_range (p : Nat → Bool) (n : Nat) :
    List.countP p (List.range n) ≤ n := by
  have := List.countP_le_length p (l := List.range n)
  simpa using this

/-- The set bits of the first `q` words, counted word by word. -/
theorem countP_bits_succ (d : List Nat) (q : Nat) :
    List.countP (fun j => bit d j) (List.range (64 * (q + 1))) =
      List.countP (fun j => bit d j) (List.range (64 * q)) + popcountll (wd d q) := by
  have h1 : 64 * (q + 1) = 64 * q + 64 := by omega
  have h2 : popcountll (wd d q) =
      List.countP ((fun j => bit d j) ∘ fun x => 64 * q + x) (List.range 64) := by
    unfold popcountll
    rw [popcount_bits_eq]
    apply List.countP_congr
    intro k hk
    simp only [Function.comp]
    rw [bit_eq d q k (List.mem_range.mp hk)]
  rw [h1, List.range_add, List.countP_append, List.countP_map, h2]

/-- The loop of `count_bitset` counts the set bits of the buffer. -/
theorem count_bitset_ok (bt : cbitset) (hv : Valid bt) :
    count_bitset bt =
      .ok (List.countP (fun j => bit bt.data j) (List.range (64 * bt.data.length))) := by
  have key := for_up_rule (fun i total => do
      let w ← load bt.data i
      pure (size_t (total + popcountll w)))
    (fun i total => total = List.countP (fun j => bit bt.data j) (List.range (64 * i)))
    bt.data.length 0 0 ?_ ?_
  · obtain ⟨t, e, ht⟩ := key
    unfold count_bitset
    rw [chunks_of_eq hv.1, ← hv.2.1, e, ht]
    simp
  · intro i t _ h2 hI
    have hi : i < bt.data.length := by omega
    refine ⟨_, by simp only [load_ok hi, ok_bind, pure_eq_ok]; rfl, ?_⟩
    show size_t (t + popcountll (wd bt.data i)) =
      List.countP (fun j => bit bt.data j) (List.range (64 * (i + 1)))
    rw [countP_bits_succ, ← hI]
    have h3 := countP_le_length_range (fun j => bit bt.data j) (64 * (i + 1))
    rw [countP_bits_succ, ← hI] at h3
    have h4 := hv.2.1
    have h5 := hv.1
    unfold size_t
    omega
  · simp

/-- The padding words hold no set bit: counting up to the end of the buffer or up to
`size` gives the same number. -/
theorem countP_bits_size (bt : cbitset) (hv : Valid bt) :
    List.countP (fun j => bit bt.data j) (List.range (64 * bt.data.length)) =
      List.countP (fun j => bit bt.data j) (List.range bt.size) := by
  have h4 := hv.2.1
  have : 64 * bt.data.length = bt.size + (64 * bt.data.length - bt.size) := by omega
  rw [this, List.range_add, List.countP_append, List.countP_map]
  have hz : List.countP ((fun j => bit bt.data j) ∘ fun x => bt.size + x)
      (List.range (64 * bt.data.length - bt.size)) = 0 := by
    rw [List.countP_eq_zero]
    intro k _
    simp only [Function.comp]
    rw [hv.bit_ge (by omega)]
    simp
  rw [hz, Nat.add_zero]

/-- A strictly increasing list holding exactly the set bits below `size` has as many
elements as there are set bits. -/
theorem length_eq_countP (bt : cbitset) (l : List Nat) (hp : l.Pairwise (fun x y => x < y))
    (hm : ∀ i, i ∈ l ↔ i < bt.size ∧ bit bt.data i = true) :
    l.length = List.countP (fun j => bit bt.data j) (List.range bt.size) := by
  rw [List.countP_eq_length_filter]
  apply List.Perm.length_eq
  rw [List.perm_ext_iff_of_nodup (hp.imp (fun h => Nat.ne_of_lt h))
    ((List.nodup_range _).filter _)]
  intro i
  rw [hm i, List.mem_filter, List.mem_range]

/-- C10: for a bitset satisfying the padding invariant with `size <= INT_MAX`, the
sequence `bitset_find_first(bt)`, `bitset_find_next(bt, i0)`, ... stops at `-1` within
`size` steps (and with any larger bound gives the same list), is strictly increasing,
holds exactly the indices `i < size` with `get_bitset(bt, i) = 1`, and its length is
`count_bitset(bt)`. -/
theorem find_chain_enumerates_set_bits (bt : cbitset) (hv : Valid bt)
    (hs : bt.size ≤ INT_MAX) :
    ∃ l : List Nat,
      (∀ fuel, bt.size ≤ fuel → set_bit_chain bt fuel = .ok (some (l.map Int.ofNat))) ∧
      l.Pairwise (fun x y => x < y) ∧
      (∀ i, i ∈ l ↔ i < bt.size ∧ get_bitset bt i = .ok 1) ∧
      count_bitset bt = .ok l.length := by
  obtain ⟨l, el, hp, hm⟩ := set_bit_chain_spec bt hv hs bt.size (Nat.le_refl _)
  refine ⟨l, fun fuel hf => ?_, hp, fun i => ?_, ?_⟩
  · obtain ⟨l2, el2, hp2, hm2⟩ := set_bit_chain_spec bt hv hs fuel hf
    have hl : l2 = l := by
      apply List.eq_of_perm_of_sorted (r := fun x y => x < y) _ hp2 hp
      rw [List.perm_ext_iff_of_nodup (hp2.imp (fun h => Nat.ne_of_lt h))
        (hp.imp (fun h => Nat.ne_of_lt h))]
      intro i
      rw [hm i, hm2 i]
    rw [el2, hl]
  · rw [hm i]
    constructor
    · intro ⟨h1, h2⟩; exact ⟨h1, get_bitset_one hv h1 h2⟩
    · intro ⟨h1, h2⟩
      refine ⟨h1, ?_⟩
      rw [get_bitset_ok h1 hv.2.1] at h2
      by_contra hb
      simp [hb] at h2
  · rw [count_bitset_ok bt hv, countP_bits_size bt hv, length_eq_countP bt l hp hm]

/-- Concrete instance of C10: the set bits 65, 128, 129 of a 130-bit bitset. -/
theorem find_chain_enumerates_set_bits_witness :
    Valid ⟨130, [0, 2, 3]⟩ ∧ (cbitset.mk 130 [0, 2, 3]).size ≤ INT_MAX ∧
    ∃ l : List Nat,
      (∀ fuel, (cbitset.mk 130 [0, 2, 3]).size ≤ fuel →
        set_bit_chain ⟨130, [0, 2, 3]⟩ fuel = .ok (some (l.map Int.ofNat))) ∧
      l.Pairwise (fun x y => x < y) ∧
      (∀ i, i ∈ l ↔ i < (cbitset.mk 130 [0, 2, 3]).size ∧
        get_bitset ⟨130, [0, 2, 3]⟩ i = .ok 1) ∧
      count_bitset ⟨130, [0, 2, 3]⟩ = .ok l.length :=
  ⟨by decide, by decide, find_chain_enumerates_set_bits ⟨130, [0, 2, 3]⟩ (by decide) (by decide)⟩

/-! ## Single-bit writes -/

theorem bit_set_word (d : List Nat) (q : Nat) (hq : q < d.length) (v : Nat) (j : Nat) :
    bit (d.set q v) j = if j / 64 = q then v.testBit (j % 64) else bit d j := by
  unfold bit
  rw [wd_set]
  by_cases h : j / 64 = q
  · rw [if_pos ⟨h.symm, hq⟩, if_pos h]
  · rw [if_neg (fun hh => h hh.1.symm), if_neg h]

/-- The call `set_bitset(bt, b)` for `b < size`: bit `b` becomes 1, the others stay. -/
theorem set_bitset_ok {bt : cbitset} {b : Nat} (hb : b < bt.size)
    (hlen : bt.data.length = (bt.size + 63) / 64) (hw : ∀ w ∈ bt.data, w < 2 ^ 64) :
    ∃ r, set_bitset bt b = .ok r ∧ r.size = bt.size ∧ r.data.length = bt.data.length ∧
      (∀ w ∈ r.data, w < 2 ^ 64) ∧
      ∀ j, bit r.data j = (decide (j = b) || bit bt.data j) := by
  have hq : b / 64 < bt.data.length := by omega
  have hk : b % 64 < 64 := Nat.mod_lt _ (by norm_num)
  refine ⟨⟨bt.size, bt.data.set (b / 64) (wd bt.data (b / 64) ||| shl64 1 (b % 64))⟩,
    ?_, rfl, by simp, ?_, fun j => ?_⟩
  · unfold set_bitset ensure_index
    simp only [hb, ↓reduceIte, ok_bind, load_ok hq, store_ok _ hq, pure_eq_ok]
  · exact set_lt hw (Nat.or_lt_two_pow (wd_lt_two_pow hw _) (shl64_lt _ _)) _
  · simp only
    rw [bit_set_word _ _ hq, shl64_one hk]
    by_cases h : j / 64 = b / 64
    · rw [if_pos h, Nat.testBit_or, Nat.testBit_two_pow]
      unfold bit
      rw [h]
      have : decide (b % 64 = j % 64) = decide (j = b) := by
        apply decide_eq_decide.mpr; omega
      rw [this, Bool.or_comm]
    · rw [if_neg h]
      have : decide (j = b) = false := by
        apply decide_eq_false; intro e; rw [e] at h; exact h rfl
      rw [this, Bool.false_or]

/-! ## String conversion (C1, C2) -/

theorem bit_char_ne_nul (d : List Nat) (j : Nat) : bit_char d j ≠ '\x00' := by
  unfold bit_char; split <;> decide

theorem bit_char_zero_or_one (d : List Nat) (j : Nat) :
    bit_char d j = '0' ∨ bit_char d j = '1' := by
  unfold bit_char; split
  · right; rfl
  · left; rfl

theorem store_char_ok {s : List Char} {i : Nat} (c : Char) (h : i < s.length) :
    store_char s i c = .ok (s.set i c) := by
  simp [store_char, h]

/-- The filling loop of `bitset_to_string`. -/
theorem to_string_loop_ok (bt : cbitset) (hs : bt.size + 63 < 2 ^ 64)
    (hlen : bt.data.length = (bt.size + 63) / 64) (s0 : List Char)
    (hs0 : s0.length = bt.size + 1) :
    ∃ s, for_up (fun i s => do
            let b ← get_bitset bt i
            store_char s (wrap_sub (wrap_sub bt.size 1) i) (if b ≠ 0 then '1' else '0'))
          bt.size 0 s0 = .ok s ∧
      s.length = bt.size + 1 ∧
      ∀ p, p < bt.size → s[p]? = some (bit_char bt.data (bt.size - 1 - p)) := by
  have key := for_up_rule (fun i s => do
            let b ← get_bitset bt i
            store_char s (wrap_sub (wrap_sub bt.size 1) i) (if b ≠ 0 then '1' else '0'))
    (fun i s => s.length = bt.size + 1 ∧
      ∀ p, bt.size - i ≤ p → p < bt.size → s[p]? = some (bit_char bt.data (bt.size - 1 - p)))
    bt.size 0 s0 ?_ ?_
  · obtain ⟨s, e, hl, hI⟩ := key
    exact ⟨s, e, hl, fun p hp => hI p (by omega) hp⟩
  · intro i t _ h2 ⟨hl, hI⟩
    have hi : i < bt.size := by omega
    have e0 : wrap_sub bt.size 1 = bt.size - 1 := wrap_sub_eq (by omega) (by omega)
    have e1 : wrap_sub (wrap_sub bt.size 1) i = bt.size - 1 - i := by
      rw [e0, wrap_sub_eq (by omega) (by omega)]
    have hpos : bt.size - 1 - i < t.length := by omega
    refine ⟨t.set (bt.size - 1 - i) (bit_char bt.data i), ?_, by simp [hl], ?_⟩
    · have hc : (if (if bit bt.data i = true then (1 : Int) else 0) ≠ 0 then '1' else '0')
          = bit_char bt.data i := by
        unfold bit_char
        cases bit bt.data i <;> rfl
      dsimp only
      rw [get_bitset_ok hi hlen, ok_bind, e1, store_char_ok _ hpos, hc]
    · intro p hp1 hp2
      rw [List.getElem?_set]
      by_cases hp : bt.size - 1 - i = p
      · rw [if_pos hp, if_pos hpos]
        have : bt.size - 1 - p = i := by omega
        rw [this]
      · rw [if_neg hp]
        exact hI p (by omega) hp2
  · exact ⟨hs0, fun p hp1 hp2 => by omega⟩

theorem digits_length (bt : cbitset) : (digits bt).length = bt.size := by
  simp [digits]

theorem digits_getElem? (bt : cbitset) {p : Nat} (hp : p < bt.size) :
    (digits bt)[p]? = some (bit_char bt.data (bt.size - 1 - p)) := by
  unfold digits
  rw [List.getElem?_map, List.getElem?_range hp]
  rfl

/-- The call `bitset_to_string(bt)` returns the digits of `bt`. -/
theorem bitset_to_string_ok (bt : cbitset) (hs : bt.size + 63 < 2 ^ 64)
    (hlen : bt.data.length = (bt.size + 63) / 64) :
    bitset_to_string bt = .ok (digits bt) := by
  have hsz : size_t (bt.size + 1) = bt.size + 1 := by unfold size_t; omega
  obtain ⟨s, e, hl, hI⟩ := to_string_loop_ok bt hs hlen
    (List.replicate (bt.size + 1) '\x00') (by simp)
  have hfin : (s.set bt.size '\x00') = digits bt ++ ['\x00'] := by
    apply List.ext_getElem?
    intro p
    rw [List.getElem?_set]
    by_cases hp : bt.size = p
    · rw [if_pos hp, if_pos (by omega), ← hp,
        List.getElem?_append_right (by rw [digits_length]), digits_length]
      simp
    · rw [if_neg hp]
      by_cases hp2 : p < bt.size
      · rw [hI p hp2, List.getElem?_append_left (by rw [digits_length]; exact hp2),
          digits_getElem? bt hp2]
      · rw [List.getElem?_eq_none (by omega), List.getElem?_eq_none]
        rw [List.length_append, digits_length]
        simp
        omega
  unfold bitset_to_string
  simp only [hsz]
  rw [e, ok_bind, store_char_ok _ (by omega), ok_bind, pure_eq_ok, hfin]
  congr 1
  unfold c_string
  rw [List.takeWhile_append]
  have hall : List.takeWhile (fun c => decide (c ≠ '\x00')) (digits bt) = digits bt := by
    rw [List.takeWhile_eq_self_iff]
    intro c hc
    unfold digits at hc
    rw [List.mem_map] at hc
    obtain ⟨k, _, rfl⟩ := hc
    simpa using bit_char_ne_nul _ _
  rw [hall, if_pos rfl]
  simp

theorem bit_replicate_zero (n j : Nat) : bit (List.replicate n 0) j = false := by
  unfold bit
  by_cases h : j / 64 < n
  · rw [wd_lt_length (by simpa using h)]; simp
  · rw [wd_ge_length (by simpa using h)]; simp

/-- The parsing loop of `bitset_from_string` on a string of binary digits. -/
theorem from_string_loop_ok (str : List Char) (hs : str.length + 63 < 2 ^ 64)
    (hc : ∀ c ∈ str, c = '0' ∨ c = '1') :
    ∃ bt, for_up (fun i bt =>
            match str.get? i with
            | none => .error .outOfBounds
            | some c =>
              if c = '1' then set_bitset bt (wrap_sub (wrap_sub str.length 1) i)
              else if c ≠ '0' then .error .invalidFormat
              else pure bt)
          str.length 0 (create_bitset str.length) = .ok bt ∧
      bt.size = str.length ∧ bt.data.length = (str.length + 63) / 64 ∧
      (∀ w ∈ bt.data, w < 2 ^ 64) ∧
      ∀ j, bit bt.data j =
        (decide (j < str.length) && decide (str[str.length - 1 - j]? = some '1')) := by
  have key := for_up_rule (fun i bt =>
            match str.get? i with
            | none => .error .outOfBounds
            | some c =>
              if c = '1' then set_bitset bt (wrap_sub (wrap_sub str.length 1) i)
              else if c ≠ '0' then .error .invalidFormat
              else pure bt)
    (fun i bt => bt.size = str.length ∧ bt.data.length = (str.length + 63) / 64 ∧
      (∀ w ∈ bt.data, w < 2 ^ 64) ∧
      ∀ j, bit bt.data j = (decide (str.length - i ≤ j ∧ j < str.length) &&
        decide (str[str.length - 1 - j]? = some '1')))
    str.length 0 (create_bitset str.length) ?_ ?_
  · obtain ⟨bt, e, h1, h2, h3, h4⟩ := key
    refine ⟨bt, e, h1, h2, h3, fun j => ?_⟩
    rw [h4 j]
    simp
  · intro i t _ h2 ⟨hsz, hl, hw, hI⟩
    have hi : i < str.length := by omega
    have e0 : wrap_sub str.length 1 = str.length - 1 := wrap_sub_eq (by omega) (by omega)
    have e1 : wrap_sub (wrap_sub str.length 1) i = str.length - 1 - i := by
      rw [e0, wrap_sub_eq (by omega) (by omega)]
    have hget : str.get? i = some (str.get ⟨i, hi⟩) := List.get?_eq_get hi
    have hcases := hc _ (List.get_mem str i hi)
    have hgi : str[i]? = some (str.get ⟨i, hi⟩) := by
      rw [List.getElem?_eq_getElem hi]; rfl
    dsimp only
    rw [hget]
    dsimp only
    rcases hcases with h0 | h1
    · -- the digit '0': the bitset is left as it is
      refine ⟨t, by rw [h0]; rfl, hsz, hl, hw, fun j => ?_⟩
      rw [hI j]
      by_cases hj : j = str.length - 1 - i
      · have e2 : str.length - 1 - j = i := by omega
        rw [e2, hgi, h0]
        have : ¬ (some '0' = some '1') := by decide
        simp [this]
      · have : decide (str.length - i ≤ j ∧ j < str.length) =
            decide (str.length - (i + 1) ≤ j ∧ j < str.length) := by
          apply decide_eq_decide.mpr; omega
        rw [this]
    · -- the digit '1': the bit `len - 1 - i` is set
      obtain ⟨r, e, r1, r2, r3, r4⟩ := @set_bitset_ok t (str.length - 1 - i)
        (by omega) (by rw [hl, hsz]) hw
      refine ⟨r, by rw [h1, if_pos rfl, e1]; exact e, by omega, by omega, r3, fun j => ?_⟩
      rw [r4 j, hI j]
      by_cases hj : j = str.length - 1 - i
      · have e2 : str.length - 1 - j = i := by omega
        rw [e2, hgi, h1]
        simp [hj]
        omega
      · have : decide (str.length - i ≤ j ∧ j < str.length) =
            decide (str.length - (i + 1) ≤ j ∧ j < str.length) := by
          apply decide_eq_decide.mpr; omega
        rw [this]
        simp [hj]
  · refine ⟨rfl, ?_, ?_, fun j => ?_⟩
    · simp [create_bitset, chunks_of_eq hs]
    · intro w hw
      simp only [create_bitset] at hw
      rw [List.eq_of_mem_replicate hw]; norm_num
    · simp only [create_bitset]
      rw [bit_replicate_zero]
      have : ¬ (str.length - 0 ≤ j ∧ j < str.length) := by omega
      simp [this]

/-- The call `bitset_from_string(str)` on a string of binary digits: it returns a
bitset satisfying the invariant, of size `len`, whose bit `j` is the digit at
position `len - 1 - j`. -/
theorem bitset_from_string_ok (str : List Char) (hs : str.length + 63 < 2 ^ 64)
    (hc : ∀ c ∈ str, c = '0' ∨ c = '1') :
    ∃ r, bitset_from_string str = .ok r ∧ r.size = str.length ∧ Valid r ∧
      ∀ j, bit r.data j =
        (decide (j < str.length) && decide (str[str.length - 1 - j]? = some '1')) := by
  obtain ⟨bt, e, h1, h2, h3, h4⟩ := from_string_loop_ok str hs hc
  have hs' : bt.size + 63 < 2 ^ 64 := by rw [h1]; exact hs
  have hl' : bt.data.length = (bt.size + 63) / 64 := by rw [h1]; exact h2
  refine ⟨⟨bt.size, masked bt.size bt.data⟩, ?_, h1, valid_masked hs' hl' h3, fun j => ?_⟩
  · unfold bitset_from_string
    dsimp only
    rw [e, ok_bind, normalize_ok hs' hl']
  · simp only
    rw [bit_masked hl', h4 j, h1]
    cases decide (j < str.length) <;> simp

/-- The digits of the bitset parsed from a string of binary digits are that string. -/
theorem digits_of_parsed (str : List Char) (hc : ∀ c ∈ str, c = '0' ∨ c = '1')
    (r : cbitset) (hsz : r.size = str.length)
    (hb : ∀ j, bit r.data j =
      (decide (j < str.length) && decide (str[str.length - 1 - j]? = some '1'))) :
    digits r = str := by
  apply List.ext_getElem?
  intro p
  by_cases hp : p < str.length
  · rw [digits_getElem? r (by omega), List.getElem?_eq_getElem hp]
    congr 1
    unfold bit_char
    rw [hb, hsz]
    have e : str.length - 1 - (str.length - 1 - p) = p := by omega
    rw [e, List.getElem?_eq_getElem hp]
    rcases hc _ (List.getElem_mem hp) with h0 | h1
    · rw [h0]
      have : ¬ (some '0' = some '1') := by decide
      simp [this]
    · rw [h1]
      simp
      omega
  · rw [List.getElem?_eq_none (by rw [digits_length]; omega), List.getElem?_eq_none (by omega)]

/-- C1: for every string `s` of binary digits (the empty string included; `s` is a C
string, so its length is a `size_t` for which `len + 63` does not wrap),
`bitset_from_string(s)` returns a bitset of size `len(s)` and `bitset_to_string` of
it returns `s`. -/
theorem to_string_from_string (s : List Char) (hlen : s.length + 63 < 2 ^ 64)
    (hc : ∀ c ∈ s, c = '0' ∨ c = '1') :
    ∃ bt, bitset_from_string s = .ok bt ∧ bt.size = s.length ∧
      bitset_to_string bt = .ok s := by
  obtain ⟨r, e, hsz, hv, hb⟩ := bitset_from_string_ok s hlen hc
  refine ⟨r, e, hsz, ?_⟩
  rw [bitset_to_string_ok r hv.1 hv.2.1, digits_of_parsed s hc r hsz hb]

/-- Concrete instances of C1: the string "110101" and the empty string. -/
theorem to_string_from_string_witness :
    (("110101".toList).length + 63 < 2 ^ 64 ∧
      (∀ c ∈ "110101".toList, c = '0' ∨ c = '1') ∧
      ∃ bt, bitset_from_string "110101".toList = .ok bt ∧
        bt.size = ("110101".toList).length ∧ bitset_to_string bt = .ok "110101".toList) ∧
    ∃ bt, bitset_from_string [] = .ok bt ∧ bt.size = ([] : List Char).length ∧
      bitset_to_string bt = .ok [] :=
  ⟨⟨by decide, by decide,
      to_string_from_string "110101".toList (by decide) (by decide)⟩,
    to_string_from_string [] (by decide) (by simp)⟩

theorem digits_binary (bt : cbitset) : ∀ c ∈ digits bt, c = '0' ∨ c = '1' := by
  intro c hc
  unfold digits at hc
  rw [List.mem_map] at hc
  obtain ⟨k, _, rfl⟩ := hc
  exact bit_char_zero_or_one _ _

theorem bit_char_eq_one (d : List Nat) (j : Nat) :
    decide (bit_char d j = '1') = bit d j := by
  unfold bit_char
  cases bit d j
  · have : ¬ ('0' = '1') := by decide
    simp [this]
  · simp

/-- The call `equal_bitset(a, b)` on two bitsets with the same size and words. -/
theorem equal_bitset_same (a b : cbitset) (hv : Valid b) (hsz : a.size = b.size)
    (hd : a.data = b.data) : equal_bitset a b = .ok 1 := by
  unfold equal_bitset
  have h1 : chunks_of b.size = b.data.length := by rw [chunks_of_eq hv.1, hv.2.1]
  simp [hsz, hd, h1]

/-- C2: for every bitset satisfying the padding invariant, `bitset_to_string` returns
a string from which `bitset_from_string` rebuilds a bitset with the same size and
the same words, and `equal_bitset` of the two returns 1. -/
theorem from_string_to_string (bt : cbitset) (hv : Valid bt) :
    ∃ s, bitset_to_string bt = .ok s ∧
      ∃ r, bitset_from_string s = .ok r ∧ r.size = bt.size ∧ r.data = bt.data ∧
        equal_bitset r bt = .ok 1 := by
  have hl : (digits bt).length = bt.size := digits_length bt
  obtain ⟨r, e, hsz, hvr, hb⟩ := bitset_from_string_ok (digits bt)
    (by rw [hl]; exact hv.1) (digits_binary bt)
  have hd : r.data = bt.data := by
    apply data_ext (by rw [hvr.2.1, hv.2.1, hsz, hl]) hvr.2.2.1 hv.2.2.1
    intro j _
    rw [hb j, hl]
    by_cases hj : j < bt.size
    · rw [digits_getElem? bt (by omega)]
      have e2 : bt.size - 1 - (bt.size - 1 - j) = j := by omega
      rw [e2]
      have : decide (some (bit_char bt.data j) = some '1') = bit bt.data j := by
        rw [← bit_char_eq_one]
        apply decide_eq_decide.mpr
        simp
      rw [this]
      simp [hj]
    · rw [hv.bit_ge (Nat.le_of_not_lt hj)]
      simp [hj]
  exact ⟨digits bt, bitset_to_string_ok bt hv.1 hv.2.1, r, e, by rw [hsz, hl], hd,
    equal_bitset_same r bt hv (by rw [hsz, hl]) hd⟩

/-- Concrete instance of C2: a 130-bit bitset over three words. -/
theorem from_string_to_string_witness :
    Valid ⟨130, [5, 2, 3]⟩ ∧
    ∃ s, bitset_to_string ⟨130, [5, 2, 3]⟩ = .ok s ∧
      ∃ r, bitset_from_string s = .ok r ∧ r.size = (cbitset.mk 130 [5, 2, 3]).size ∧
        r.data = (cbitset.mk 130 [5, 2, 3]).data ∧
        equal_bitset r ⟨130, [5, 2, 3]⟩ = .ok 1 :=
  ⟨by decide, from_string_to_string ⟨130, [5, 2, 3]⟩ (by decide)⟩

/-! ## The invariant across the operations (C3) -/

/-- The zero-fill loop of `shl_bitset` run past the end of the buffer stops at the
first word outside it. -/
theorem zero_fill_out_of_bounds : ∀ (n lo : Nat) (d : List Nat), lo ≤ d.length →
    d.length < lo + n → for_up (fun i d => store d i 0) n lo d = .error .outOfBounds := by
  intro n
  induction n with
  | zero => intro lo d h1 h2; omega
  | succ n ih =>
    intro lo d h1 h2
    unfold for_up
    by_cases h : lo < d.length
    · rw [store_ok _ h, ok_bind]
      exact ih (lo + 1) _ (by simpa using h) (by simp; omega)
    · simp [store, h, error_bind]

/-- Left shift past the storage: for every valid nonempty bitset and every shift of
more than `chunks` whole words, `shl_bitset` writes outside the buffer. -/
theorem shl_bitset_out_of_bounds (bt : cbitset) (shift : Nat) (hv : Valid bt)
    (h0 : bt.size ≠ 0) (hbig : bt.data.length < shift / 64) :
    shl_bitset bt shift = .error .outOfBounds := by
  have hc : chunks_of bt.size = bt.data.length := by rw [chunks_of_eq hv.1, hv.2.1]
  have hz : chunks_of bt.size - shift / 64 = 0 := by omega
  unfold shl_bitset
  rw [if_neg (by omega)]
  dsimp only
  rw [if_pos (by omega), hz]
  simp only [for_down, ok_bind]
  rw [zero_fill_out_of_bounds _ _ _ (Nat.zero_le _) (by omega)]
  rfl

/-- Whole-word stage of `shr_bitset` when `word_shift` exceeds the chunk count: the
start `chunks - word_shift` of the zero-fill loop wraps around in `size_t`, and no
word is moved or cleared. -/
theorem shr_stage_words_past (d0 : List Nat) (c ws : Nat) (hgt : c < ws) (hws : ws < 2 ^ 64) :
    (if ws > 0 then do
        let d ← for_up (fun i d => do
            let w ← load d (i + ws)
            store d i w) (c - ws) 0 d0
        for_up (fun i d => store d i 0) (c - wrap_sub c ws) (wrap_sub c ws) d
      else pure d0) = Except.ok d0 := by
  have hz : c - ws = 0 := by omega
  have hw : c - wrap_sub c ws = 0 := by unfold wrap_sub; omega
  rw [if_pos (by omega), hz, hw]
  rfl

/-- Right shift past the storage: for every valid nonempty bitset and every shift (a
`size_t`) of more than `chunks` whole words, `shr_bitset` returns and keeps the
invariant, but only applies the sub-word shift `shift % 64`. -/
theorem shr_bitset_past_storage (bt : cbitset) (shift : Nat) (hv : Valid bt)
    (h0 : bt.size ≠ 0) (hsh : shift < 2 ^ 64) (hbig : bt.data.length < shift / 64) :
    ∃ r, shr_bitset bt shift = .ok r ∧ r.size = bt.size ∧ Valid r ∧
      ∀ j, bit r.data j = (decide (j < bt.size) && bit bt.data (j + shift % 64)) := by
  obtain ⟨hs, hlen, hw, _⟩ := hv
  have hc : chunks_of bt.size = bt.data.length := by rw [chunks_of_eq hs, hlen]
  have eA := shr_stage_words_past bt.data (chunks_of bt.size) (shift / 64) (by omega)
    (by omega)
  obtain ⟨dB, eB, lB, wB, bB⟩ := shr_stage_bits bt.data (chunks_of bt.size) (shift % 64)
    hc (Nat.mod_lt _ (by norm_num)) hw
  have lB' : dB.length = (bt.size + 63) / 64 := by omega
  have eC := mask_stage hs lB'
  have eD := @normalize_ok ⟨bt.size, masked bt.size dB⟩ hs
    (by rw [masked_length]; exact lB')
  refine ⟨⟨bt.size, masked bt.size dB⟩, ?_, rfl, valid_masked hs lB' wB, fun j => ?_⟩
  · unfold shr_bitset
    rw [if_neg (by omega)]
    dsimp only
    rw [eA, ok_bind, eB, ok_bind, eC, ok_bind, eD]
    simp only
    rw [masked_masked lB' wB]
  · simp only
    rw [bit_masked lB', bB]

/-- A loop that rewrites each word from its own old value. -/
theorem for_up_map (body : Nat → List Nat → Except Fault (List Nat)) (g : Nat → Nat → Nat)
    (d0 : List Nat)
    (hbody : ∀ i d, i < d0.length → d.length = d0.length →
      body i d = .ok (d.set i (g i (wd d i)))) :
    ∃ d, for_up body d0.length 0 d0 = .ok d ∧ d.length = d0.length ∧
      ∀ j, wd d j = if j < d0.length then g j (wd d0 j) else wd d0 j := by
  have key := for_up_rule body
    (fun i d => d.length = d0.length ∧
      ∀ j, wd d j = if j < i then g j (wd d0 j) else wd d0 j)
    d0.length 0 d0 ?_ ?_
  · obtain ⟨d, h1, h2, h3⟩ := key
    refine ⟨d, h1, h2, fun j => ?_⟩
    rw [h3 j]; simp
  · intro i t _ h2 ⟨hl, hI⟩
    have hi : i < d0.length := by omega
    refine ⟨_, hbody i t hi hl, by simp [hl], fun j => ?_⟩
    have ha : wd t i = wd d0 i := by rw [hI i, if_neg (by omega)]
    rw [wd_set, ha, hI j]
    by_cases hj : i = j
    · subst hj
      simp [hl, hi]
    · have h3 : ¬ (i = j ∧ i < t.length) := by omega
      rw [if_neg h3]
      by_cases h4 : j < i
      · rw [if_pos h4, if_pos (by omega)]
      · rw [if_neg h4, if_neg (by omega)]
  · refine ⟨rfl, fun j => ?_⟩
    rw [if_neg (by omega)]

/-- The masking step when the struct is rebuilt in both branches. -/
theorem mask_struct {size : Nat} {d : List Nat} (hs : size + 63 < 2 ^ 64)
    (hlen : d.length = (size + 63) / 64) :
    (if size % 64 ≠ 0 then do
        let w ← load d (wrap_sub (chunks_of size) 1)
        let d' ← store d (wrap_sub (chunks_of size) 1) (w &&& low_mask (size % 64))
        pure (cbitset.mk size d')
      else pure (cbitset.mk size d)) = Except.ok ⟨size, masked size d⟩ := by
  have h := @normalize_ok ⟨size, d⟩ hs hlen
  unfold normalize_bitset at h
  by_cases he : size % 64 = 0
  · simp [he, masked, pure_eq_ok]
  · simp only [ne_eq, he, not_false_eq_true, ↓reduceIte] at h ⊢
    exact h

theorem valid_create_bitset (bits : Nat) (h : bits + 63 < 2 ^ 64) :
    Valid (create_bitset bits) := by
  apply valid_of_bits h
  · simp [create_bitset, chunks_of_eq h]
  · intro w hw
    simp only [create_bitset] at hw
    rw [List.eq_of_mem_replicate hw]; norm_num
  · intro j _
    exact bit_replicate_zero _ _

/-- The call `set_bitset(bt, b)` for `b < size` keeps the invariant. -/
theorem set_bitset_valid (bt : cbitset) (b : Nat) (hv : Valid bt) (hb : b < bt.size) :
    ∃ r, set_bitset bt b = .ok r ∧ r.size = bt.size ∧ Valid r ∧
      ∀ j, bit r.data j = (decide (j = b) || bit bt.data j) := by
  obtain ⟨r, e, h1, h2, h3, h4⟩ := set_bitset_ok hb hv.2.1 hv.2.2.1
  refine ⟨r, e, h1, ?_, h4⟩
  have : r = ⟨bt.size, r.data⟩ := by rw [← h1]
  rw [this]
  apply valid_of_bits hv.1 (by rw [h2]; exact hv.2.1) h3
  intro j hj
  rw [h4 j, hv.bit_ge hj]
  simp; omega

/-- The call `clear_bitset(bt, b)` for `b < size`: bit `b` becomes 0, the others
stay, and the invariant is kept. -/
theorem clear_bitset_valid (bt : cbitset) (b : Nat) (hv : Valid bt) (hb : b < bt.size) :
    ∃ r, clear_bitset bt b = .ok r ∧ r.size = bt.size ∧ Valid r ∧
      ∀ j, bit r.data j = (!decide (j = b) && bit bt.data j) := by
  have hlen := hv.2.1
  have hq : b / 64 < bt.data.length := by omega
  have hk : b % 64 < 64 := Nat.mod_lt _ (by norm_num)
  have hbits : ∀ j, bit (bt.data.set (b / 64)
      (wd bt.data (b / 64) &&& not64 (shl64 1 (b % 64)))) j =
        (!decide (j = b) && bit bt.data j) := by
    intro j
    rw [bit_set_word _ _ hq, shl64_one hk]
    by_cases h : j / 64 = b / 64
    · rw [if_pos h, Nat.testBit_and,
        testBit_not64 (Nat.pow_lt_pow_right (by norm_num) hk), Nat.testBit_two_pow]
      unfold bit
      rw [h]
      have : decide (b % 64 = j % 64) = decide (j = b) := by
        apply decide_eq_decide.mpr; omega
      rw [this]
      have h64 : decide (j % 64 < 64) = true := by simp; omega
      rw [h64, Bool.true_and, Bool.and_comm]
    · rw [if_neg h]
      have : decide (j = b) = false := by
        apply decide_eq_false; intro e; rw [e] at h; exact h rfl
      rw [this]; simp
  refine ⟨⟨bt.size, bt.data.set (b / 64) (wd bt.data (b / 64) &&& not64 (shl64 1 (b % 64)))⟩,
    ?_, rfl, ?_, hbits⟩
  · unfold clear_bitset ensure_index
    simp only [hb, ↓reduceIte, ok_bind, load_ok hq, store_ok _ hq, pure_eq_ok]
  · apply valid_of_bits hv.1 (by simp [hlen])
      (set_lt hv.2.2.1 (Nat.lt_of_le_of_lt Nat.and_le_left (wd_lt_two_pow hv.2.2.1 _)) _)
    intro j hj
    rw [hbits j, hv.bit_ge hj]
    simp

/-- The call `toggle_bitset(bt, b)` for `b < size`: bit `b` is flipped, the others
stay, and the invariant is kept. -/
theorem toggle_bitset_valid (bt : cbitset) (b : Nat) (hv : Valid bt) (hb : b < bt.size) :
    ∃ r, toggle_bitset bt b = .ok r ∧ r.size = bt.size ∧ Valid r ∧
      ∀ j, bit r.data j = (decide (j = b) ^^ bit bt.data j) := by
  have hlen := hv.2.1
  have hq : b / 64 < bt.data.length := by omega
  have hk : b % 64 < 64 := Nat.mod_lt _ (by norm_num)
  have hbits : ∀ j, bit (bt.data.set (b / 64)
      (wd bt.data (b / 64) ^^^ shl64 1 (b % 64))) j = (decide (j = b) ^^ bit bt.data j) := by
    intro j
    rw [bit_set_word _ _ hq, shl64_one hk]
    by_cases h : j / 64 = b / 64
    · rw [if_pos h, Nat.testBit_xor, Nat.testBit_two_pow]
      unfold bit
      rw [h]
      have : decide (b % 64 = j % 64) = decide (j = b) := by
        apply decide_eq_decide.mpr; omega
      rw [this, Bool.xor_comm]
    · rw [if_neg h]
      have : decide (j = b) = false := by
        apply decide_eq_false; intro e; rw [e] at h; exact h rfl
      rw [this]; simp
  refine ⟨⟨bt.size, bt.data.set (b / 64) (wd bt.data (b / 64) ^^^ shl64 1 (b % 64))⟩,
    ?_, rfl, ?_, hbits⟩
  · unfold toggle_bitset ensure_index
    simp only [hb, ↓reduceIte, ok_bind, load_ok hq, store_ok _ hq, pure_eq_ok]
  · apply valid_of_bits hv.1 (by simp [hlen])
      (set_lt hv.2.2.1 (Nat.xor_lt_two_pow (wd_lt_two_pow hv.2.2.1 _) (shl64_lt _ _)) _)
    intro j hj
    rw [hbits j, hv.bit_ge hj]
    simp; omega

theorem fill_words_ok {d : List Nat} {n : Nat} (h : n = d.length) (v : Nat) :
    fill_words d n v = .ok (List.replicate n v) := by
  unfold fill_words
  rw [if_pos (by omega), h, List.drop_length, List.append_nil]

theorem wd_replicate (n v j : Nat) :
    wd (List.replicate n v) j = if j < n then v else 0 := by
  by_cases h : j < n
  · rw [if_pos h, wd_lt_length (by simpa using h)]; simp
  · rw [if_neg h, wd_ge_length (by simpa using h)]

/-- The call `reset_all_bitset(bt)` clears every bit and keeps the invariant. -/
theorem reset_all_bitset_valid (bt : cbitset) (hv : Valid bt) :
    ∃ r, reset_all_bitset bt = .ok r ∧ r.size = bt.size ∧ Valid r ∧
      ∀ j, bit r.data j = false := by
  have hc : chunks_of bt.size = bt.data.length := by rw [chunks_of_eq hv.1, hv.2.1]
  refine ⟨⟨bt.size, List.replicate (chunks_of bt.size) 0⟩, ?_, rfl, ?_,
    fun j => bit_replicate_zero _ _⟩
  · unfold reset_all_bitset
    rw [fill_words_ok hc, ok_bind, pure_eq_ok]
  · exact valid_create_bitset bt.size hv.1

/-- The call `set_all_bitset(bt)` sets exactly the bits below `size` and keeps the
invariant. -/
theorem set_all_bitset_valid (bt : cbitset) (hv : Valid bt) :
    ∃ r, set_all_bitset bt = .ok r ∧ r.size = bt.size ∧ Valid r ∧
      ∀ j, bit r.data j = decide (j < bt.size) := by
  have hs := hv.1
  have hlen := hv.2.1
  have hc : chunks_of bt.size = bt.data.length := by rw [chunks_of_eq hs, hlen]
  have hrl : (List.replicate (chunks_of bt.size) (2 ^ 64 - 1)).length = bt.data.length := by
    simp [hc]
  have hones : ∀ j, bit (List.replicate (chunks_of bt.size) (2 ^ 64 - 1)) j =
      decide (j < 64 * bt.data.length) := by
    intro j
    unfold bit
    rw [wd_replicate, hc]
    by_cases h : j / 64 < bt.data.length
    · rw [if_pos h, Nat.testBit_two_pow_sub_one]
      have h1 : j % 64 < 64 := Nat.mod_lt _ (by norm_num)
      simp [h1]; omega
    · rw [if_neg h]; simp; omega
  have hwl : ∀ w ∈ List.replicate (chunks_of bt.size) (2 ^ 64 - 1), w < 2 ^ 64 := by
    intro w hw
    rw [List.eq_of_mem_replicate hw]; norm_num
  by_cases he : bt.size % 64 = 0
  · refine ⟨⟨bt.size, List.replicate (chunks_of bt.size) (2 ^ 64 - 1)⟩, ?_, rfl, ?_, ?_⟩
    · unfold set_all_bitset
      dsimp only
      rw [fill_words_ok hc, ok_bind]
      simp [he, pure_eq_ok]
    · apply valid_of_bits hs (by rw [hrl, hlen]) hwl
      intro j hj
      rw [hones j]; simp; omega
    · intro j
      simp only
      rw [hones j]
      apply decide_eq_decide.mpr; omega
  · have hq : bt.data.length - 1 < (List.replicate (chunks_of bt.size) (2 ^ 64 - 1)).length := by
      rw [hrl]; omega
    have hidx : wrap_sub (chunks_of bt.size) 1 = bt.data.length - 1 := by
      rw [hc, wrap_sub_eq (by omega) (by omega)]
    have hk : bt.size % 64 < 64 := Nat.mod_lt _ (by norm_num)
    have hbits : ∀ j, bit ((List.replicate (chunks_of bt.size) (2 ^ 64 - 1)).set
        (bt.data.length - 1) (low_mask (bt.size % 64))) j = decide (j < bt.size) := by
      intro j
      rw [bit_set_word _ _ hq]
      by_cases h : j / 64 = bt.data.length - 1
      · rw [if_pos h, testBit_low_mask hk]
        apply decide_eq_decide.mpr; omega
      · rw [if_neg h, hones j]
        apply decide_eq_decide.mpr; omega
    refine ⟨⟨bt.size, (List.replicate (chunks_of bt.size) (2 ^ 64 - 1)).set
        (bt.data.length - 1) (low_mask (bt.size % 64))⟩, ?_, rfl, ?_, hbits⟩
    · unfold set_all_bitset
      dsimp only
      rw [fill_words_ok hc, ok_bind, if_pos he, hidx, store_ok _ hq, ok_bind, pure_eq_ok]
    · apply valid_of_bits hs (by simp [hc, hlen]) (set_lt hwl (low_mask_lt hk) _)
      intro j hj
      rw [hbits j]; simp; omega

/-- The call `flip_all_bitset(bt)` complements the bits below `size` and keeps the
invariant. -/
theorem flip_all_bitset_valid (bt : cbitset) (hv : Valid bt) :
    ∃ r, flip_all_bitset bt = .ok r ∧ r.size = bt.size ∧ Valid r ∧
      ∀ j, bit r.data j = (decide (j < bt.size) && !bit bt.data j) := by
  have hs := hv.1
  have hlen := hv.2.1
  have hc : chunks_of bt.size = bt.data.length := by rw [chunks_of_eq hs, hlen]
  obtain ⟨d, e, hl, hw⟩ := for_up_map (fun i d => do
      let w ← load d i
      store d i (not64 w)) (fun _ w => not64 w) bt.data (fun i d hi hd => by
        have h : i < d.length := by omega
        simp only [load_ok h, ok_bind, store_ok _ h])
  have hl' : d.length = (bt.size + 63) / 64 := by omega
  have hdl : ∀ w ∈ d, w < 2 ^ 64 := by
    apply all_lt_of_wd
    intro j
    rw [hw j]
    split
    · unfold not64; omega
    · exact wd_lt_two_pow hv.2.2.1 _
  refine ⟨⟨bt.size, masked bt.size d⟩, ?_, rfl, valid_masked hs hl' hdl, fun j => ?_⟩
  · unfold flip_all_bitset
    dsimp only
    rw [hc, e, ok_bind, ← hc]
    exact mask_struct hs hl'
  · simp only
    rw [bit_masked hl']
    by_cases hj : j < bt.size
    · unfold bit
      rw [hw, if_pos (by omega), testBit_not64 (wd_lt_two_pow hv.2.2.1 _)]
      have h1 : j % 64 < 64 := Nat.mod_lt _ (by norm_num)
      simp [hj, h1]
    · simp [hj]

/-- The call `not_bitset(bt)` is `flip_all_bitset(bt)`. -/
theorem not_bitset_valid (bt : cbitset) (hv : Valid bt) :
    ∃ r, not_bitset bt = .ok r ∧ r.size = bt.size ∧ Valid r ∧
      ∀ j, bit r.data j = (decide (j < bt.size) && !bit bt.data j) :=
  flip_all_bitset_valid bt hv

/-- The word-wise operations on two valid bitsets of equal size: each bit of the
result is the operation on the two bits, and the invariant is kept whenever the
operation maps two zero bits to zero. -/
theorem word_op_valid (op : Nat → Nat → Nat) (f : Bool → Bool → Bool)
    (hop : ∀ x y k, (op x y).testBit k = f (x.testBit k) (y.testBit k))
    (hlt : ∀ x y, x < 2 ^ 64 → y < 2 ^ 64 → op x y < 2 ^ 64) (hf : f false false = false)
    (a b : cbitset) (ha : Valid a) (hb : Valid b) (hsz : a.size = b.size) :
    ∃ r, word_op op a b = .ok r ∧ r.size = a.size ∧ Valid r ∧
      ∀ j, bit r.data j = f (bit a.data j) (bit b.data j) := by
  have hc : chunks_of a.size = a.data.length := by rw [chunks_of_eq ha.1, ha.2.1]
  have hlab : a.data.length = b.data.length := by rw [ha.2.1, hb.2.1, hsz]
  obtain ⟨d, e, hl, hw⟩ := for_up_map (fun i d => do
      let x ← load d i
      let y ← load b.data i
      store d i (op x y)) (fun i w => op w (wd b.data i)) a.data (fun i d hi hd => by
        have h : i < d.length := by omega
        have h' : i < b.data.length := by omega
        simp only [load_ok h, load_ok h', ok_bind, store_ok _ h])
  have hbits : ∀ j, bit d j = f (bit a.data j) (bit b.data j) := by
    intro j
    unfold bit
    rw [hw]
    by_cases hj : j / 64 < a.data.length
    · rw [if_pos hj, hop]
    · rw [if_neg hj, wd_ge_length (by omega), wd_ge_length (by omega)]
      simp [hf]
  refine ⟨⟨a.size, d⟩, ?_, rfl, ?_, hbits⟩
  · unfold word_op
    rw [if_pos hsz, hc, e, ok_bind, pure_eq_ok]
  · apply valid_of_bits ha.1 (by rw [hl]; exact ha.2.1)
    · apply all_lt_of_wd
      intro j
      rw [hw j]
      split
      · exact hlt _ _ (wd_lt_two_pow ha.2.2.1 _) (wd_lt_two_pow hb.2.2.1 _)
      · exact wd_lt_two_pow ha.2.2.1 _
    · intro j hj
      rw [hbits j, ha.bit_ge hj, hb.bit_ge (by omega), hf]

/-- The call `and_bitset(a, b)` on valid bitsets of equal size. -/
theorem and_bitset_valid (a b : cbitset) (ha : Valid a) (hb : Valid b)
    (hsz : a.size = b.size) :
    ∃ r, and_bitset a b = .ok r ∧ r.size = a.size ∧ Valid r ∧
      ∀ j, bit r.data j = (bit a.data j && bit b.data j) :=
  word_op_valid (fun x y => x &&& y) (fun p q => p && q) (fun x y k => Nat.testBit_and x y k)
    (fun _ _ hx _ => Nat.lt_of_le_of_lt Nat.and_le_left hx) rfl a b ha hb hsz

/-- The call `or_bitset(a, b)` on valid bitsets of equal size. -/
theorem or_bitset_valid (a b : cbitset) (ha : Valid a) (hb : Valid b)
    (hsz : a.size = b.size) :
    ∃ r, or_bitset a b = .ok r ∧ r.size = a.size ∧ Valid r ∧
      ∀ j, bit r.data j = (bit a.data j || bit b.data j) :=
  word_op_valid (fun x y => x ||| y) (fun p q => p || q) (fun x y k => Nat.testBit_or x y k)
    (fun _ _ hx hy => Nat.or_lt_two_pow hx hy) rfl a b ha hb hsz

/-- The call `xor_bitset(a, b)` on valid bitsets of equal size. -/
theorem xor_bitset_valid (a b : cbitset) (ha : Valid a) (hb : Valid b)
    (hsz : a.size = b.size) :
    ∃ r, xor_bitset a b = .ok r ∧ r.size = a.size ∧ Valid r ∧
      ∀ j, bit r.data j = (bit a.data j ^^ bit b.data j) :=
  word_op_valid (fun x y => x ^^^ y) (fun p q => p ^^ q) (fun x y k => Nat.testBit_xor x y k)
    (fun _ _ hx hy => Nat.xor_lt_two_pow hx hy) rfl a b ha hb hsz

/-- The call `copy_bitset(src)` on a valid bitset returns an equal bitset. -/
theorem copy_bitset_valid (src : cbitset) (hv : Valid src) :
    copy_bitset src = .ok src := by
  have hc : chunks_of src.size = src.data.length := by rw [chunks_of_eq hv.1, hv.2.1]
  unfold copy_bitset
  dsimp only
  rw [hc, if_pos (Nat.le_refl _), List.take_length]

/-- The call `shr_bitset(bt, shift)` keeps the invariant for every shift amount. -/
theorem shr_bitset_valid (bt : cbitset) (shift : Nat) (hv : Valid bt) (hsh : shift < 2 ^ 64) :
    ∃ r, shr_bitset bt shift = .ok r ∧ r.size = bt.size ∧ Valid r := by
  by_cases h0 : bt.size = 0
  · exact ⟨bt, by simp [shr_bitset, h0, pure_eq_ok], rfl, hv⟩
  · by_cases hle : shift / 64 ≤ bt.data.length
    · obtain ⟨r, e, h1, h2, _⟩ := shr_bitset_ok bt shift hv hle
      exact ⟨r, e, h1, h2⟩
    · obtain ⟨r, e, h1, h2, _⟩ := shr_bitset_past_storage bt shift hv h0 hsh (by omega)
      exact ⟨r, e, h1, h2⟩

/-- The call `shl_bitset(bt, shift)` keeps the invariant for every shift of at most
`chunks` whole words. -/
theorem shl_bitset_valid (bt : cbitset) (shift : Nat) (hv : Valid bt)
    (hle : shift / 64 ≤ bt.data.length) :
    ∃ r, shl_bitset bt shift = .ok r ∧ r.size = bt.size ∧ Valid r := by
  obtain ⟨r, e, h1, h2, _⟩ := shl_bitset_ok bt shift hv hle
  exact ⟨r, e, h1, h2⟩

/-- The chunk count of `create_bitset` wraps for sizes above `2 ^ 64 - 64`: the
result of `create_bitset(SIZE_MAX)` has no word at all. -/
theorem create_bitset_wraps :
    (create_bitset (2 ^ 64 - 1)).size = 2 ^ 64 - 1 ∧ (create_bitset (2 ^ 64 - 1)).data = [] ∧
      (2 ^ 64 - 1 + 63) / 64 = 2 ^ 58 := by
  decide

/-- C3 at the input `size = 64`, `data = [5]`, `shift = 192`: the bitset satisfies the
invariant, `word_shift = 3` exceeds the one chunk, and the zero-fill loop of
`shl_bitset` writes `data[1]` outside the storage, so the call does not return a
bitset satisfying the invariant. -/
theorem shl_bitset_breaks_invariant_at_large_shift :
    Valid ⟨64, [5]⟩ ∧ shl_bitset ⟨64, [5]⟩ 192 = .error .outOfBounds ∧
      ¬ ∃ r, shl_bitset ⟨64, [5]⟩ 192 = .ok r ∧ r.size = 64 ∧ Valid r := by
  refine ⟨by decide, by decide, ?_⟩
  rintro ⟨r, h, _⟩
  have e : shl_bitset ⟨64, [5]⟩ 192 = .error .outOfBounds := by decide
  rw [e] at h
  cases h

/-! ## Bit addressing and counting (C11) -/

/-- Setting one more predicate value in a range adds one to the count, unless it was
already counted. -/
theorem countP_set_one (p : Nat → Bool) (i : Nat) : ∀ n, i < n →
    List.countP (fun j => decide (j = i) || p j) (List.range n) =
      List.countP p (List.range n) + (if p i then 0 else 1) := by
  intro n
  induction n with
  | zero => intro h; omega
  | succ n ih =>
    intro h
    rw [List.range_succ, List.countP_append, List.countP_append]
    by_cases hi : i = n
    · subst hi
      have h1 : List.countP (fun j => decide (j = i) || p j) (List.range i) =
          List.countP p (List.range i) := by
        apply List.countP_congr
        intro j hj
        have : j ≠ i := Nat.ne_of_lt (List.mem_range.mp hj)
        simp [this]
      rw [h1]
      cases hp : p i <;> simp [List.countP_cons, hp]
    · rw [ih (by omega)]
      have : n ≠ i := fun e => hi e.symm
      simp only [List.countP_cons, List.countP_nil, this, decide_False, Bool.false_or]
      omega

/-- The count of a valid bitset is the number of set bits below `size`. -/
theorem count_bitset_eq (bt : cbitset) (hv : Valid bt) :
    count_bitset bt = .ok (List.countP (fun j => bit bt.data j) (List.range bt.size)) := by
  rw [count_bitset_ok bt hv, countP_bits_size bt hv]

/-- C11: for a bitset satisfying the padding invariant and `i < size`: after
`set_bitset(bt, i)`, `get_bitset` at `i` returns 1 and `count_bitset` is the old
count plus 1 if the bit was 0, the old count if it was 1; after
`clear_bitset(bt, i)`, `get_bitset` at `i` returns 0. -/
theorem set_clear_bit_addressing (bt : cbitset) (i : Nat) (hv : Valid bt) (hi : i < bt.size) :
    (∃ r n, set_bitset bt i = .ok r ∧ get_bitset r i = .ok 1 ∧ count_bitset bt = .ok n ∧
      (get_bitset bt i = .ok 0 ∨ get_bitset bt i = .ok 1) ∧
      (get_bitset bt i = .ok 0 → count_bitset r = .ok (n + 1)) ∧
      (get_bitset bt i = .ok 1 → count_bitset r = .ok n)) ∧
    (∃ r, clear_bitset bt i = .ok r ∧ get_bitset r i = .ok 0) := by
  constructor
  · obtain ⟨r, e, hsz, hvr, hb⟩ := set_bitset_valid bt i hv hi
    refine ⟨r, _, e, ?_, count_bitset_eq bt hv, ?_, ?_, ?_⟩
    · exact get_bitset_one hvr (by omega) (by rw [hb i]; simp)
    · rw [get_bitset_ok hi hv.2.1]
      cases bit bt.data i
      · left; rfl
      · right; rfl
    · intro h0
      have hbi : bit bt.data i = false := by
        rw [get_bitset_ok hi hv.2.1] at h0
        by_contra hne
        simp [hne] at h0
      rw [count_bitset_eq r hvr, hsz]
      have : (fun j => bit r.data j) = (fun j => decide (j = i) || bit bt.data j) :=
        funext hb
      rw [this, countP_set_one _ i _ hi, hbi]
      rfl
    · intro h1
      have hbi : bit bt.data i = true := by
        rw [get_bitset_ok hi hv.2.1] at h1
        by_contra hne
        simp [hne] at h1
      rw [count_bitset_eq r hvr, hsz]
      have : (fun j => bit r.data j) = (fun j => decide (j = i) || bit bt.data j) :=
        funext hb
      rw [this, countP_set_one _ i _ hi, hbi]
      rfl
  · obtain ⟨r, e, hsz, hvr, hb⟩ := clear_bitset_valid bt i hv hi
    exact ⟨r, e, get_bitset_zero hvr (by omega) (by rw [hb i]; simp)⟩

/-- Concrete instance of C11: bit 66 of a 130-bit bitset. -/
theorem set_clear_bit_addressing_witness :
    Valid ⟨130, [5, 2, 3]⟩ ∧ 66 < (cbitset.mk 130 [5, 2, 3]).size ∧
    (∃ r n, set_bitset ⟨130, [5, 2, 3]⟩ 66 = .ok r ∧ get_bitset r 66 = .ok 1 ∧
      count_bitset ⟨130, [5, 2, 3]⟩ = .ok n ∧
      (get_bitset ⟨130, [5, 2, 3]⟩ 66 = .ok 0 ∨ get_bitset ⟨130, [5, 2, 3]⟩ 66 = .ok 1) ∧
      (get_bitset ⟨130, [5, 2, 3]⟩ 66 = .ok 0 → count_bitset r = .ok (n + 1)) ∧
      (get_bitset ⟨130, [5, 2, 3]⟩ 66 = .ok 1 → count_bitset r = .ok n)) ∧
    (∃ r, clear_bitset ⟨130, [5, 2, 3]⟩ 66 = .ok r ∧ get_bitset r 66 = .ok 0) :=
  ⟨by decide, by decide, set_clear_bit_addressing ⟨130, [5, 2, 3]⟩ 66 (by decide) (by decide)⟩

/-! ## Complement involution (C12) -/

/-- C12: for a bitset satisfying the padding invariant, of any size, applying
`flip_all_bitset` twice returns the bitset itself (same size, same words). -/
theorem flip_all_twice (bt : cbitset) (hv : Valid bt) :
    ∃ r, flip_all_bitset bt = .ok r ∧ flip_all_bitset r = .ok bt := by
  obtain ⟨r, e, hsz, hvr, hb⟩ := flip_all_bitset_valid bt hv
  obtain ⟨r2, e2, hsz2, hvr2, hb2⟩ := flip_all_bitset_valid r hvr
  refine ⟨r, e, ?_⟩
  rw [e2]
  congr 1
  have hd : r2.data = bt.data := by
    apply data_ext (by rw [hvr2.2.1, hv.2.1, hsz2, hsz]) hvr2.2.2.1 hv.2.2.1
    intro j _
    rw [hb2 j, hb j, hsz]
    by_cases hj : j < bt.size
    · simp [hj]
    · simp [hj, hv.bit_ge (Nat.le_of_not_lt hj)]
  cases r2
  cases bt
  simp only [cbitset.mk.injEq] at *
  exact ⟨by omega, hd⟩

/-- Concrete instances of C12: sizes 0, 64 and 130. -/
theorem flip_all_twice_witness :
    (Valid ⟨0, []⟩ ∧ ∃ r, flip_all_bitset ⟨0, []⟩ = .ok r ∧ flip_all_bitset r = .ok ⟨0, []⟩) ∧
    (Valid ⟨64, [5]⟩ ∧
      ∃ r, flip_all_bitset ⟨64, [5]⟩ = .ok r ∧ flip_all_bitset r = .ok ⟨64, [5]⟩) ∧
    (Valid ⟨130, [5, 2, 3]⟩ ∧
      ∃ r, flip_all_bitset ⟨130, [5, 2, 3]⟩ = .ok r ∧
        flip_all_bitset r = .ok ⟨130, [5, 2, 3]⟩) :=
  ⟨⟨by decide, flip_all_twice ⟨0, []⟩ (by decide)⟩,
   ⟨by decide, flip_all_twice ⟨64, [5]⟩ (by decide)⟩,
   ⟨by decide, flip_all_twice ⟨130, [5, 2, 3]⟩ (by decide)⟩⟩

/-! ## Word-wise operations (C13) -/

theorem Valid.wellFormed {bt : cbitset} (hv : Valid bt) : WellFormed bt :=
  ⟨hv.1, hv.2.1, hv.2.2.1⟩

/-- The word-wise operations on two well-formed bitsets of equal size: the call
returns, keeps the size and the word count, and each bit of the result is the
operation on the two bits. -/
theorem word_op_bits (op : Nat → Nat → Nat) (f : Bool → Bool → Bool)
    (hop : ∀ x y k, (op x y).testBit k = f (x.testBit k) (y.testBit k))
    (a b : cbitset) (ha : WellFormed a) (hb : WellFormed b) (hsz : a.size = b.size) :
    ∃ r, word_op op a b = .ok r ∧ r.size = a.size ∧ r.data.length = a.data.length ∧
      ∀ j, j < 64 * a.data.length → bit r.data j = f (bit a.data j) (bit b.data j) := by
  have hc : chunks_of a.size = a.data.length := by rw [chunks_of_eq ha.1, ha.2.1]
  have hlab : a.data.length = b.data.length := by rw [ha.2.1, hb.2.1, hsz]
  obtain ⟨d, e, hl, hw⟩ := for_up_map (fun i d => do
      let x ← load d i
      let y ← load b.data i
      store d i (op x y)) (fun i w => op w (wd b.data i)) a.data (fun i d hi hd => by
        have h : i < d.length := by omega
        have h' : i < b.data.length := by omega
        simp only [load_ok h, load_ok h', ok_bind, store_ok _ h])
  refine ⟨⟨a.size, d⟩, ?_, rfl, hl, fun j hj => ?_⟩
  · unfold word_op
    rw [if_pos hsz, hc, e, ok_bind, pure_eq_ok]
  · unfold bit
    simp only
    rw [hw, if_pos (by omega), hop]

/-- Reading bit `i < size` of a well-formed bitset returns 1 exactly when the logical
bit is set. -/
theorem get_bitset_eq_one_iff {bt : cbitset} (hw : WellFormed bt) {i : Nat}
    (hi : i < bt.size) : get_bitset bt i = .ok 1 ↔ bit bt.data i = true := by
  rw [get_bitset_ok hi hw.2.1]
  cases bit bt.data i <;> simp

/-- Two reads of bits below `size` agree exactly when the logical bits agree. -/
theorem get_bitset_eq_iff {a b : cbitset} (ha : WellFormed a) (hb : WellFormed b) {i : Nat}
    (hia : i < a.size) (hib : i < b.size) :
    get_bitset a i = get_bitset b i ↔ bit a.data i = bit b.data i := by
  rw [get_bitset_ok hia ha.2.1, get_bitset_ok hib hb.2.1]
  cases bit a.data i <;> cases bit b.data i <;> simp

/-- C13: for well-formed bitsets `a` and `b` of equal size, `and_bitset`, `or_bitset`
and `xor_bitset` return the new value of `a` with the size unchanged and, for every
`i < size`, bit `i` equal to the AND, OR, XOR of the old bit of `a` and the bit of
`b`; when `b` has the same words as `a`, the XOR is all-zero. (The functions only
load from `b`.) -/
theorem word_ops_bitwise (a b : cbitset) (ha : WellFormed a) (hb : WellFormed b)
    (hsz : a.size = b.size) :
    (∃ r, and_bitset a b = .ok r ∧ r.size = a.size ∧ ∀ i, i < a.size →
      get_bitset r i =
        .ok (if get_bitset a i = .ok 1 ∧ get_bitset b i = .ok 1 then 1 else 0)) ∧
    (∃ r, or_bitset a b = .ok r ∧ r.size = a.size ∧ ∀ i, i < a.size →
      get_bitset r i =
        .ok (if get_bitset a i = .ok 1 ∨ get_bitset b i = .ok 1 then 1 else 0)) ∧
    (∃ r, xor_bitset a b = .ok r ∧ r.size = a.size ∧ ∀ i, i < a.size →
      get_bitset r i = .ok (if get_bitset a i = get_bitset b i then 0 else 1)) ∧
    (a.data = b.data → ∃ r, xor_bitset a b = .ok r ∧ r.size = a.size ∧
      ∀ i, i < a.size → get_bitset r i = .ok 0) := by
  have hlen := ha.2.1
  obtain ⟨r1, e1, s1, l1, b1⟩ := word_op_bits (fun x y => x &&& y) (fun p q => p && q)
    (fun x y k => Nat.testBit_and x y k) a b ha hb hsz
  obtain ⟨r2, e2, s2, l2, b2⟩ := word_op_bits (fun x y => x ||| y) (fun p q => p || q)
    (fun x y k => Nat.testBit_or x y k) a b ha hb hsz
  obtain ⟨r3, e3, s3, l3, b3⟩ := word_op_bits (fun x y => x ^^^ y) (fun p q => p ^^ q)
    (fun x y k => Nat.testBit_xor x y k) a b ha hb hsz
  refine ⟨⟨r1, e1, s1, fun i hi => ?_⟩, ⟨r2, e2, s2, fun i hi => ?_⟩,
    ⟨r3, e3, s3, fun i hi => ?_⟩, fun hd => ⟨r3, e3, s3, fun i hi => ?_⟩⟩
  · have hib : i < b.size := by omega
    rw [get_bitset_ok (by omega) (by rw [l1, s1, hlen]), b1 i (by omega)]
    simp only [get_bitset_eq_one_iff ha hi, get_bitset_eq_one_iff hb hib]
    cases bit a.data i <;> cases bit b.data i <;> simp
  · have hib : i < b.size := by omega
    rw [get_bitset_ok (by omega) (by rw [l2, s2, hlen]), b2 i (by omega)]
    simp only [get_bitset_eq_one_iff ha hi, get_bitset_eq_one_iff hb hib]
    cases bit a.data i <;> cases bit b.data i <;> simp
  · have hib : i < b.size := by omega
    rw [get_bitset_ok (by omega) (by rw [l3, s3, hlen]), b3 i (by omega)]
    simp only [get_bitset_eq_iff ha hb hi hib]
    cases bit a.data i <;> cases bit b.data i <;> simp
  · rw [get_bitset_ok (by omega) (by rw [l3, s3, hlen]), b3 i (by omega), hd]
    simp

/-- Concrete instance of C13: two 70-bit bitsets. -/
theorem word_ops_bitwise_witness :
    WellFormed ⟨70, [12, 5]⟩ ∧ WellFormed ⟨70, [10, 3]⟩ ∧
    (cbitset.mk 70 [12, 5]).size = (cbitset.mk 70 [10, 3]).size ∧
    (∃ r, and_bitset ⟨70, [12, 5]⟩ ⟨70, [10, 3]⟩ = .ok r ∧
      r.size = (cbitset.mk 70 [12, 5]).size ∧ ∀ i, i < (cbitset.mk 70 [12, 5]).size →
      get_bitset r i =
        .ok (if get_bitset ⟨70, [12, 5]⟩ i = .ok 1 ∧ get_bitset ⟨70, [10, 3]⟩ i = .ok 1
          then 1 else 0)) ∧
    (∃ r, or_bitset ⟨70, [12, 5]⟩ ⟨70, [10, 3]⟩ = .ok r ∧
      r.size = (cbitset.mk 70 [12, 5]).size ∧ ∀ i, i < (cbitset.mk 70 [12, 5]).size →
      get_bitset r i =
        .ok (if get_bitset ⟨70, [12, 5]⟩ i = .ok 1 ∨ get_bitset ⟨70, [10, 3]⟩ i = .ok 1
          then 1 else 0)) ∧
    (∃ r, xor_bitset ⟨70, [12, 5]⟩ ⟨70, [10, 3]⟩ = .ok r ∧
      r.size = (cbitset.mk 70 [12, 5]).size ∧ ∀ i, i < (cbitset.mk 70 [12, 5]).size →
      get_bitset r i =
        .ok (if get_bitset ⟨70, [12, 5]⟩ i = get_bitset ⟨70, [10, 3]⟩ i then 0 else 1)) ∧
    ((cbitset.mk 70 [12, 5]).data = (cbitset.mk 70 [10, 3]).data →
      ∃ r, xor_bitset ⟨70, [12, 5]⟩ ⟨70, [10, 3]⟩ = .ok r ∧
        r.size = (cbitset.mk 70 [12, 5]).size ∧
        ∀ i, i < (cbitset.mk 70 [12, 5]).size → get_bitset r i = .ok 0) :=
  ⟨by decide, by decide, rfl,
    word_ops_bitwise ⟨70, [12, 5]⟩ ⟨70, [10, 3]⟩ (by decide) (by decide) rfl⟩

/-! ## A bitset OR its complement (C14) -/

/-- The scan of `bitset_all` over words that are all `UINT64_MAX`. -/
theorem all_from_true (d : List Nat) : ∀ (n i : Nat), i + n ≤ d.length →
    (∀ q, i ≤ q → q < i + n → wd d q = 2 ^ 64 - 1) → all_from d n i = .ok true := by
  intro n
  induction n with
  | zero => intro i _ _; rfl
  | succ n ih =>
    intro i hle hall
    unfold all_from
    rw [load_ok (by omega), ok_bind, hall i (Nat.le_refl _) (by omega)]
    simp only [ne_eq, not_true_eq_false, ↓reduceIte]
    exact ih (i + 1) (by omega) (fun q h1 h2 => hall q (by omega) (by omega))

/-- A 64-bit word whose 64 bits are all set is `UINT64_MAX`. -/
theorem word_all_ones {w : Nat} (hw : w < 2 ^ 64) (h : ∀ k, k < 64 → w.testBit k = true) :
    w = 2 ^ 64 - 1 := by
  apply word_ext hw (by norm_num)
  intro k hk
  rw [h k hk, Nat.testBit_two_pow_sub_one]
  simp [hk]

/-- The call `bitset_all(bt)` on a valid bitset whose bits below `size` are all set. -/
theorem bitset_all_of_bits (bt : cbitset) (hv : Valid bt)
    (h : ∀ j, j < bt.size → bit bt.data j = true) : bitset_all bt = .ok 1 := by
  have hlen := hv.2.1
  have hfull : all_from bt.data (bt.size / 64) 0 = .ok true := by
    apply all_from_true _ _ _ (by omega)
    intro q _ hq
    apply word_all_ones (wd_lt_two_pow hv.2.2.1 q)
    intro k hk
    rw [← bit_eq _ _ _ hk]
    exact h _ (by omega)
  unfold bitset_all
  dsimp only
  rw [hfull, ok_bind]
  by_cases he : bt.size % 64 = 0
  · simp [he, pure_eq_ok]
  · have hk : bt.size % 64 < 64 := Nat.mod_lt _ (by norm_num)
    have hq : bt.size / 64 < bt.data.length := by omega
    have hm : wd bt.data (bt.size / 64) &&& low_mask (bt.size % 64) =
        low_mask (bt.size % 64) := by
      apply word_ext (Nat.lt_of_le_of_lt Nat.and_le_left (wd_lt_two_pow hv.2.2.1 _))
        (low_mask_lt hk)
      intro k hk64
      rw [Nat.testBit_and, testBit_low_mask hk]
      by_cases hke : k < bt.size % 64
      · rw [← bit_eq _ _ _ hk64, h _ (by omega)]
        simp
      · simp [hke]
    simp only [Bool.not_true, Bool.false_eq_true, ↓reduceIte, ne_eq, he, not_false_eq_true]
    rw [load_ok hq, ok_bind, hm]
    simp [pure_eq_ok]

/-- C14: for a bitset `a` satisfying the padding invariant, with `c` the copy of `a`
complemented by `flip_all_bitset`, `or_bitset(a, c)` leaves `a` at the same size with
every bit below `size` equal to 1 and the invariant kept: `bitset_all` returns 1,
`count_bitset` returns `size`, and the value is what `set_all_bitset` gives on a
bitset of that size. -/
theorem or_with_complement_all_ones (a : cbitset) (hv : Valid a) :
    ∃ c c' r, copy_bitset a = .ok c ∧ flip_all_bitset c = .ok c' ∧ or_bitset a c' = .ok r ∧
      r.size = a.size ∧ Valid r ∧ (∀ i, i < a.size → get_bitset r i = .ok 1) ∧
      bitset_all r = .ok 1 ∧ count_bitset r = .ok a.size ∧
      set_all_bitset (create_bitset a.size) = .ok r ∧ set_all_bitset a = .ok r := by
  obtain ⟨c', e1, s1, v1, b1⟩ := flip_all_bitset_valid a hv
  obtain ⟨r, e2, s2, v2, b2⟩ := or_bitset_valid a c' hv v1 s1.symm
  have hbits : ∀ j, bit r.data j = decide (j < a.size) := by
    intro j
    rw [b2 j, b1 j]
    by_cases hj : j < a.size
    · cases bit a.data j <;> simp [hj]
    · simp [hj, hv.bit_ge (Nat.le_of_not_lt hj)]
  have hset : ∀ x, Valid x → x.size = a.size → set_all_bitset x = .ok r := by
    intro x hx hxs
    obtain ⟨t, e3, s3, v3, b3⟩ := set_all_bitset_valid x hx
    rw [e3]
    congr 1
    have hd : t.data = r.data := by
      apply data_ext (by rw [v3.2.1, v2.2.1, s3, s2, hxs]) v3.2.2.1 v2.2.2.1
      intro j _
      rw [b3 j, hbits j, hxs]
    cases t
    cases r
    simp only [cbitset.mk.injEq] at *
    exact ⟨by omega, hd⟩
  refine ⟨a, c', r, copy_bitset_valid a hv, e1, e2, s2, v2, fun i hi => ?_, ?_, ?_, ?_, ?_⟩
  · exact get_bitset_one v2 (by omega) (by rw [hbits i]; simp [hi])
  · exact bitset_all_of_bits r v2 (fun j hj => by rw [hbits j]; simp; omega)
  · rw [count_bitset_eq r v2, s2]
    congr 1
    have : List.countP (fun j => bit r.data j) (List.range a.size) =
        (List.range a.size).length := by
      rw [List.countP_eq_length]
      intro j hj
      rw [hbits j]
      simpa using List.mem_range.mp hj
    rw [this, List.length_range]
  · exact hset _ (valid_create_bitset a.size hv.1) rfl
  · exact hset a hv rfl

/-- Concrete instance of C14: a 130-bit bitset. -/
theorem or_with_complement_all_ones_witness :
    Valid ⟨130, [5, 2, 3]⟩ ∧
    ∃ c c' r, copy_bitset ⟨130, [5, 2, 3]⟩ = .ok c ∧ flip_all_bitset c = .ok c' ∧
      or_bitset ⟨130, [5, 2, 3]⟩ c' = .ok r ∧
      r.size = (cbitset.mk 130 [5, 2, 3]).size ∧ Valid r ∧
      (∀ i, i < (cbitset.mk 130 [5, 2, 3]).size → get_bitset r i = .ok 1) ∧
      bitset_all r = .ok 1 ∧ count_bitset r = .ok (cbitset.mk 130 [5, 2, 3]).size ∧
      set_all_bitset (create_bitset (cbitset.mk 130 [5, 2, 3]).size) = .ok r ∧
      set_all_bitset ⟨130, [5, 2, 3]⟩ = .ok r :=
  ⟨by decide, or_with_complement_all_ones ⟨130, [5, 2, 3]⟩ (by decide)⟩

/-! ## Equality (C15) -/

/-- C15: for bitsets `a` and `b` satisfying the padding invariant, `equal_bitset`
returns 0 or 1, and 1 exactly when the sizes are equal and every bit below `size`
agrees; it returns 0 when the sizes differ; `not_equal_bitset` returns the negation;
and the copy of `a` is equal to `a`. -/
theorem equal_bitset_iff (a b : cbitset) (ha : Valid a) (hb : Valid b) :
    ∃ r, equal_bitset a b = .ok r ∧ (r = 0 ∨ r = 1) ∧
      (r = 1 ↔ (a.size = b.size ∧ ∀ i, i < a.size → get_bitset a i = get_bitset b i)) ∧
      (a.size ≠ b.size → r = 0) ∧
      not_equal_bitset a b = .ok (if r = 0 then 1 else 0) ∧
      ∃ c, copy_bitset a = .ok c ∧ equal_bitset c a = .ok 1 := by
  have hcopy : ∃ c, copy_bitset a = .ok c ∧ equal_bitset c a = .ok 1 :=
    ⟨a, copy_bitset_valid a ha, equal_bitset_same a a ha rfl rfl⟩
  by_cases hsz : a.size = b.size
  · have hca : chunks_of a.size = a.data.length := by rw [chunks_of_eq ha.1, ha.2.1]
    have hlab : a.data.length = b.data.length := by rw [ha.2.1, hb.2.1, hsz]
    have he : equal_bitset a b = .ok (if a.data = b.data then 1 else 0) := by
      unfold equal_bitset
      rw [if_neg (by simpa using hsz)]
      dsimp only
      rw [hca, if_pos ⟨Nat.le_refl _, by omega⟩, List.take_length, hlab, List.take_length]
    have hiff : a.data = b.data ↔ ∀ i, i < a.size → get_bitset a i = get_bitset b i := by
      constructor
      · intro hd i hi
        rw [get_bitset_eq_iff ha.wellFormed hb.wellFormed hi (by omega), hd]
      · intro h
        apply data_ext hlab ha.2.2.1 hb.2.2.1
        intro j _
        by_cases hj : j < a.size
        · exact (get_bitset_eq_iff ha.wellFormed hb.wellFormed hj (by omega)).mp (h j hj)
        · rw [ha.bit_ge (Nat.le_of_not_lt hj), hb.bit_ge (by omega)]
    by_cases hd : a.data = b.data
    · refine ⟨1, by rw [he, if_pos hd], Or.inr rfl, ?_, fun h => absurd hsz h, ?_, hcopy⟩
      · exact ⟨fun _ => ⟨hsz, hiff.mp hd⟩, fun _ => rfl⟩
      · unfold not_equal_bitset
        rw [he, if_pos hd]
        rfl
    · refine ⟨0, by rw [he, if_neg hd], Or.inl rfl, ?_, fun _ => rfl, ?_, hcopy⟩
      · constructor
        · intro h; exact absurd h (by decide)
        · intro ⟨_, h⟩; exact absurd (hiff.mpr h) hd
      · unfold not_equal_bitset
        rw [he, if_neg hd]
        rfl
  · have he : equal_bitset a b = .ok 0 := by
      unfold equal_bitset
      rw [if_pos (by simpa using hsz)]
    refine ⟨0, he, Or.inl rfl, ?_, fun _ => rfl, ?_, hcopy⟩
    · constructor
      · intro h; exact absurd h (by decide)
      · intro ⟨h, _⟩; exact absurd h hsz
    · unfold not_equal_bitset
      rw [he]
      rfl

/-- Concrete instance of C15: two 130-bit bitsets differing in bit 2. -/
theorem equal_bitset_iff_witness :
    Valid ⟨130, [5, 2, 3]⟩ ∧ Valid ⟨130, [1, 2, 3]⟩ ∧
    ∃ r, equal_bitset ⟨130, [5, 2, 3]⟩ ⟨130, [1, 2, 3]⟩ = .ok r ∧ (r = 0 ∨ r = 1) ∧
      (r = 1 ↔ ((cbitset.mk 130 [5, 2, 3]).size = (cbitset.mk 130 [1, 2, 3]).size ∧
        ∀ i, i < (cbitset.mk 130 [5, 2, 3]).size →
          get_bitset ⟨130, [5, 2, 3]⟩ i = get_bitset ⟨130, [1, 2, 3]⟩ i)) ∧
      ((cbitset.mk 130 [5, 2, 3]).size ≠ (cbitset.mk 130 [1, 2, 3]).size → r = 0) ∧
      not_equal_bitset ⟨130, [5, 2, 3]⟩ ⟨130, [1, 2, 3]⟩ = .ok (if r = 0 then 1 else 0) ∧
      ∃ c, copy_bitset ⟨130, [5, 2, 3]⟩ = .ok c ∧
        equal_bitset c ⟨130, [5, 2, 3]⟩ = .ok 1 :=
  ⟨by decide, by decide, equal_bitset_iff ⟨130, [5, 2, 3]⟩ ⟨130, [1, 2, 3]⟩
    (by decide) (by decide)⟩

/-! ## Index check of the single-bit accessors (C16) -/

/-- C16: for every bitset (whatever its buffer) and every index, each of `get_bitset`,
`set_bitset`, `clear_bitset`, `toggle_bitset` stops at the assertion of `ensure_index`
exactly when `bit >= size`; nothing of the buffer is consulted for that answer, and
no new value of the bitset is produced. On a well-formed bitset an index below `size`
makes all four return. With `size = 0` every access stops at the assertion. -/
theorem single_bit_access_index_check (bt : cbitset) (b : Nat) :
    (get_bitset bt b = .error .indexOutOfRange ↔ bt.size ≤ b) ∧
    (set_bitset bt b = .error .indexOutOfRange ↔ bt.size ≤ b) ∧
    (clear_bitset bt b = .error .indexOutOfRange ↔ bt.size ≤ b) ∧
    (toggle_bitset bt b = .error .indexOutOfRange ↔ bt.size ≤ b) ∧
    (WellFormed bt → b < bt.size →
      (∃ v, get_bitset bt b = .ok v) ∧ (∃ r, set_bitset bt b = .ok r) ∧
      (∃ r, clear_bitset bt b = .ok r) ∧ (∃ r, toggle_bitset bt b = .ok r)) ∧
    (bt.size = 0 →
      get_bitset bt b = .error .indexOutOfRange ∧ set_bitset bt b = .error .indexOutOfRange ∧
      clear_bitset bt b = .error .indexOutOfRange ∧
      toggle_bitset bt b = .error .indexOutOfRange) := by
  have hge : bt.size ≤ b →
      get_bitset bt b = .error .indexOutOfRange ∧ set_bitset bt b = .error .indexOutOfRange ∧
      clear_bitset bt b = .error .indexOutOfRange ∧
      toggle_bitset bt b = .error .indexOutOfRange := by
    intro h
    have hn : ¬ b < bt.size := by omega
    refine ⟨?_, ?_, ?_, ?_⟩ <;>
      simp [get_bitset, set_bitset, clear_bitset, toggle_bitset, ensure_index, hn, error_bind,
        bind, Except.bind]
  have hlt : b < bt.size →
      get_bitset bt b ≠ .error .indexOutOfRange ∧ set_bitset bt b ≠ .error .indexOutOfRange ∧
      clear_bitset bt b ≠ .error .indexOutOfRange ∧
      toggle_bitset bt b ≠ .error .indexOutOfRange := by
    intro h
    by_cases hq : b / 64 < bt.data.length
    · refine ⟨?_, ?_, ?_, ?_⟩ <;>
        simp [get_bitset, set_bitset, clear_bitset, toggle_bitset, ensure_index, h, load, store,
          hq, bind, Except.bind, pure, Except.pure]
    · refine ⟨?_, ?_, ?_, ?_⟩ <;>
        simp [get_bitset, set_bitset, clear_bitset, toggle_bitset, ensure_index, h, load, store,
          hq, bind, Except.bind, pure, Except.pure]
  refine ⟨⟨?_, fun h => (hge h).1⟩, ⟨?_, fun h => (hge h).2.1⟩, ⟨?_, fun h => (hge h).2.2.1⟩,
    ⟨?_, fun h => (hge h).2.2.2⟩, ?_, fun h => hge (by omega)⟩
  · intro h; by_contra hc; exact (hlt (by omega)).1 h
  · intro h; by_contra hc; exact (hlt (by omega)).2.1 h
  · intro h; by_contra hc; exact (hlt (by omega)).2.2.1 h
  · intro h; by_contra hc; exact (hlt (by omega)).2.2.2 h
  · intro hw hb
    have hq : b / 64 < bt.data.length := by have := hw.2.1; omega
    refine ⟨?_, ?_, ?_, ?_⟩ <;>
      simp [get_bitset, set_bitset, clear_bitset, toggle_bitset, ensure_index, hb, load, store,
        hq, bind, Except.bind, pure, Except.pure]

/-- Concrete instance of C16: index 130 and index 5 of a 130-bit bitset. -/
theorem single_bit_access_index_check_witness :
    ((get_bitset ⟨130, [5, 2, 3]⟩ 130 = .error .indexOutOfRange ↔
        (cbitset.mk 130 [5, 2, 3]).size ≤ 130) ∧
      set_bitset ⟨130, [5, 2, 3]⟩ 130 = .error .indexOutOfRange) ∧
    WellFormed ⟨130, [5, 2, 3]⟩ ∧ 5 < (cbitset.mk 130 [5, 2, 3]).size ∧
    ((∃ v, get_bitset ⟨130, [5, 2, 3]⟩ 5 = .ok v) ∧ (∃ r, set_bitset ⟨130, [5, 2, 3]⟩ 5 = .ok r) ∧
      (∃ r, clear_bitset ⟨130, [5, 2, 3]⟩ 5 = .ok r) ∧
      (∃ r, toggle_bitset ⟨130, [5, 2, 3]⟩ 5 = .ok r)) :=
  ⟨⟨(single_bit_access_index_check ⟨130, [5, 2, 3]⟩ 130).1, by decide⟩, by decide, by decide,
    (single_bit_access_index_check ⟨130, [5, 2, 3]⟩ 5).2.2.2.2.1 (by decide) (by decide)⟩

/-! ## Input format of `bitset_from_string` (C17) -/

/-- The parsing loop of `bitset_from_string` from position `lo`: either it runs to
the end over binary digits only, or it stops at `InvalidFormat` on a character that
is neither '0' nor '1'. -/
theorem from_string_loop_cases (str : List Char) (hs : str.length + 63 < 2 ^ 64) :
    ∀ (n lo : Nat) (bt : cbitset), lo + n ≤ str.length →
      bt.size = str.length → bt.data.length = (str.length + 63) / 64 →
      (∀ w ∈ bt.data, w < 2 ^ 64) →
      (∃ r, for_up (fun i bt =>
            match str.get? i with
            | none => .error .outOfBounds
            | some c =>
              if c = '1' then set_bitset bt (wrap_sub (wrap_sub str.length 1) i)
              else if c ≠ '0' then .error .invalidFormat
              else pure bt) n lo bt = .ok r) ∨
      (for_up (fun i bt =>
            match str.get? i with
            | none => .error .outOfBounds
            | some c =>
              if c = '1' then set_bitset bt (wrap_sub (wrap_sub str.length 1) i)
              else if c ≠ '0' then .error .invalidFormat
              else pure bt) n lo bt = .error .invalidFormat) := by
  intro n
  induction n with
  | zero => intro lo bt _ _ _ _; exact Or.inl ⟨bt, rfl⟩
  | succ n ih =>
    intro lo bt hle hsz hl hw
    have hi : lo < str.length := by omega
    have hget : str.get? lo = some (str.get ⟨lo, hi⟩) := List.get?_eq_get hi
    unfold for_up
    rw [hget]
    dsimp only
    by_cases h1 : str.get ⟨lo, hi⟩ = '1'
    · have e0 : wrap_sub str.length 1 = str.length - 1 := wrap_sub_eq (by omega) (by omega)
      have e1 : wrap_sub (wrap_sub str.length 1) lo = str.length - 1 - lo := by
        rw [e0, wrap_sub_eq (by omega) (by omega)]
      obtain ⟨r, e, r1, r2, r3, _⟩ := @set_bitset_ok bt (str.length - 1 - lo)
        (by omega) (by rw [hl, hsz]) hw
      rw [if_pos h1, e1, e, ok_bind]
      exact ih (lo + 1) r (by omega) (by omega) (by omega) r3
    · rw [if_neg h1]
      by_cases h0 : str.get ⟨lo, hi⟩ = '0'
      · rw [if_neg (by simpa using h0), pure_eq_ok, ok_bind]
        exact ih (lo + 1) bt (by omega) hsz hl hw
      · rw [if_pos h0, error_bind]
        exact Or.inr rfl

/-- On a string with a character that is neither '0' nor '1', the parsing loop does
not run to the end. -/
theorem from_string_loop_not_ok (str : List Char) :
    ∀ (n lo : Nat) (bt r : cbitset), lo + n ≤ str.length →
      (∃ i, lo ≤ i ∧ i < lo + n ∧ ∃ h : i < str.length,
        str.get ⟨i, h⟩ ≠ '0' ∧ str.get ⟨i, h⟩ ≠ '1') →
      for_up (fun i bt =>
            match str.get? i with
            | none => .error .outOfBounds
            | some c =>
              if c = '1' then set_bitset bt (wrap_sub (wrap_sub str.length 1) i)
              else if c ≠ '0' then .error .invalidFormat
              else pure bt) n lo bt ≠ .ok r := by
  intro n
  induction n with
  | zero => intro lo bt r _ ⟨i, h1, h2, _⟩; omega
  | succ n ih =>
    intro lo bt r hle ⟨i, h1, h2, hi, hne0, hne1⟩
    have hlo : lo < str.length := by omega
    have hget : str.get? lo = some (str.get ⟨lo, hlo⟩) := List.get?_eq_get hlo
    unfold for_up
    rw [hget]
    dsimp only
    by_cases hil : i = lo
    · subst hil
      rw [if_neg hne1, if_pos hne0, error_bind]
      intro h; cases h
    · have hrest : ∃ j, lo + 1 ≤ j ∧ j < lo + 1 + n ∧ ∃ h : j < str.length,
          str.get ⟨j, h⟩ ≠ '0' ∧ str.get ⟨j, h⟩ ≠ '1' :=
        ⟨i, by omega, by omega, hi, hne0, hne1⟩
      by_cases h1' : str.get ⟨lo, hlo⟩ = '1'
      · rw [if_pos h1']
        cases hset : set_bitset bt (wrap_sub (wrap_sub str.length 1) lo) with
        | error e => rw [error_bind]; intro h; cases h
        | ok t => rw [ok_bind]; exact ih (lo + 1) t r (by omega) hrest
      · rw [if_neg h1']
        by_cases h0' : str.get ⟨lo, hlo⟩ = '0'
        · rw [if_neg (by simpa using h0'), pure_eq_ok, ok_bind]
          exact ih (lo + 1) bt r (by omega) hrest
        · rw [if_pos h0', error_bind]
          intro h; cases h

/-- C17: for every string `s` (a C string, so `len + 63` does not wrap),
`bitset_from_string(s)` either stops at `InvalidFormat` or returns a bitset; it stops
exactly when `s` has a character other than '0' and '1'; a returned bitset has size
`len(s)` and its bit `len(s) - 1 - k` is 1 exactly when `s[k]` is '1'. -/
theorem bitset_from_string_format (s : List Char) (hlen : s.length + 63 < 2 ^ 64) :
    (bitset_from_string s = .error .invalidFormat ∨ ∃ r, bitset_from_string s = .ok r) ∧
    (bitset_from_string s = .error .invalidFormat ↔ ∃ c ∈ s, c ≠ '0' ∧ c ≠ '1') ∧
    (∀ r, bitset_from_string s = .ok r → r.size = s.length ∧
      ∀ k, k < s.length →
        get_bitset r (s.length - 1 - k) = .ok (if s[k]? = some '1' then 1 else 0)) := by
  by_cases hall : ∀ c ∈ s, c = '0' ∨ c = '1'
  · -- only binary digits
    obtain ⟨r, e, hsz, hv, hb⟩ := bitset_from_string_ok s hlen hall
    refine ⟨Or.inr ⟨r, e⟩, ⟨fun h => ?_, fun ⟨c, hc, h0, h1⟩ => ?_⟩, fun r' e' => ?_⟩
    · rw [e] at h; cases h
    · rcases hall c hc with h | h
      · exact absurd h h0
      · exact absurd h h1
    · have hr : r' = r := by rw [e] at e'; cases e'; rfl
      subst hr
      refine ⟨hsz, fun k hk => ?_⟩
      rw [get_bitset_ok (by omega) hv.2.1, hb]
      have e2 : s.length - 1 - (s.length - 1 - k) = k := by omega
      rw [e2]
      by_cases h1 : s[k]? = some '1'
      · simp [h1]; omega
      · simp [h1]
  · -- some character is not a binary digit
    have hbad : ∃ c ∈ s, c ≠ '0' ∧ c ≠ '1' := by
      by_contra hno
      apply hall
      intro c hc
      by_contra hcc
      exact hno ⟨c, hc, fun h => hcc (Or.inl h), fun h => hcc (Or.inr h)⟩
    have hidx : ∃ i, 0 ≤ i ∧ i < 0 + s.length ∧ ∃ h : i < s.length,
        s.get ⟨i, h⟩ ≠ '0' ∧ s.get ⟨i, h⟩ ≠ '1' := by
      obtain ⟨c, hc, h0, h1⟩ := hbad
      obtain ⟨i, hi⟩ := List.mem_iff_get.mp hc
      exact ⟨i.1, Nat.zero_le _, by simp, i.2, by rw [hi]; exact ⟨h0, h1⟩⟩
    have hcreate : (create_bitset s.length).data.length = (s.length + 63) / 64 := by
      simp [create_bitset, chunks_of_eq hlen]
    have hcw : ∀ w ∈ (create_bitset s.length).data, w < 2 ^ 64 := by
      intro w hw
      simp only [create_bitset] at hw
      rw [List.eq_of_mem_replicate hw]; norm_num
    have hdef : bitset_from_string s =
        (for_up (fun i bt =>
            match s.get? i with
            | none => .error .outOfBounds
            | some c =>
              if c = '1' then set_bitset bt (wrap_sub (wrap_sub s.length 1) i)
              else if c ≠ '0' then .error .invalidFormat
              else pure bt) s.length 0 (create_bitset s.length) >>= normalize_bitset) := rfl
    have herr : bitset_from_string s = .error .invalidFormat := by
      rcases from_string_loop_cases s hlen s.length 0 (create_bitset s.length) (by omega) rfl
        hcreate hcw with ⟨r, e⟩ | e
      · exact absurd e (from_string_loop_not_ok s s.length 0 _ r (by omega) hidx)
      · rw [hdef, e, error_bind]
    refine ⟨Or.inl herr, ⟨fun _ => hbad, fun _ => herr⟩, fun r e => ?_⟩
    rw [herr] at e; cases e

/-- Concrete instances of C17: the strings "110101" and "1021". -/
theorem bitset_from_string_format_witness :
    (("110101".toList).length + 63 < 2 ^ 64 ∧
      (bitset_from_string "110101".toList = .error .invalidFormat ∨
        ∃ r, bitset_from_string "110101".toList = .ok r) ∧
      (bitset_from_string "110101".toList = .error .invalidFormat ↔
        ∃ c ∈ "110101".toList, c ≠ '0' ∧ c ≠ '1') ∧
      (∀ r, bitset_from_string "110101".toList = .ok r →
        r.size = ("110101".toList).length ∧
        ∀ k, k < ("110101".toList).length →
          get_bitset r (("110101".toList).length - 1 - k) =
            .ok (if ("110101".toList)[k]? = some '1' then 1 else 0))) ∧
    (("1021".toList).length + 63 < 2 ^ 64 ∧
      (bitset_from_string "1021".toList = .error .invalidFormat ∨
        ∃ r, bitset_from_string "1021".toList = .ok r) ∧
      (bitset_from_string "1021".toList = .error .invalidFormat ↔
        ∃ c ∈ "1021".toList, c ≠ '0' ∧ c ≠ '1') ∧
      (∀ r, bitset_from_string "1021".toList = .ok r →
        r.size = ("1021".toList).length ∧
        ∀ k, k < ("1021".toList).length →
          get_bitset r (("1021".toList).length - 1 - k) =
            .ok (if ("1021".toList)[k]? = some '1' then 1 else 0))) :=
  ⟨⟨by decide, bitset_from_string_format "110101".toList (by decide)⟩,
   ⟨by decide, bitset_from_string_format "1021".toList (by decide)⟩⟩

/-! ## The demo program (C18) -/

/-- C18: the scenario of `example.c`. With `a = from_string("110101")` and
`b = from_string("011011")`, `or_bitset(a, b)` leaves `a` printing as "111111";
`shl_bitset(a, 3)` then leaves it printing as "111000"; `bitset_find_first` returns 3
and `bitset_find_next(a, 4)` returns 5. -/
theorem demo_scenario :
    ∃ a b a1 a2,
      bitset_from_string "110101".toList = .ok a ∧
      bitset_from_string "011011".toList = .ok b ∧
      or_bitset a b = .ok a1 ∧ bitset_to_string a1 = .ok "111111".toList ∧
      shl_bitset a1 3 = .ok a2 ∧ bitset_to_string a2 = .ok "111000".toList ∧
      bitset_find_first a2 = .ok 3 ∧ bitset_find_next a2 4 = .ok 5 :=
  ⟨⟨6, [53]⟩, ⟨6, [27]⟩, ⟨6, [63]⟩, ⟨6, [56]⟩,
    by decide, by decide, by decide, by decide, by decide, by decide, by decide, by decide⟩

/-! ## `bitset_find_next` at the end of the bitset (C19) -/

/-- C19 as stated fails on a bitset of `2 ^ 31` bits: the size exceeds `INT_MAX`, and
with `prev_index = size - 1` the call stops at the assertion
`bt->size <= INT_MAX` instead of returning `-1`. -/
theorem bitset_find_next_large_size_asserts :
    (create_bitset (2 ^ 31)).size ≤ (2 ^ 31 - 1) + 1 ∧
    bitset_find_next (create_bitset (2 ^ 31)) (2 ^ 31 - 1) = .error .tooLarge ∧
    bitset_find_next (create_bitset (2 ^ 31)) (2 ^ 31 - 1) ≠ .ok (-1) := by
  have e : bitset_find_next (create_bitset (2 ^ 31)) (2 ^ 31 - 1) = .error .tooLarge := by
    simp [bitset_find_next, create_bitset, INT_MAX]
  refine ⟨by simp [create_bitset], e, ?_⟩
  rw [e]
  intro h; cases h

/-- C19 amended: for every bitset with `1 <= size <= INT_MAX`, whatever its buffer,
and every `prev_index` with `prev_index + 1 >= size`, `bitset_find_next` returns `-1`;
the answer is the same with no storage at all, so no word is read. -/
theorem bitset_find_next_at_end (bt : cbitset) (prev_index : Nat) (h1 : 1 ≤ bt.size)
    (hs : bt.size ≤ INT_MAX) (hp : bt.size ≤ prev_index + 1) :
    bitset_find_next bt prev_index = .ok (-1) ∧
      ∀ d, bitset_find_next ⟨bt.size, d⟩ prev_index = .ok (-1) := by
  have hs' : bt.size ≤ 2147483647 := hs
  have hsub : wrap_sub bt.size 1 = bt.size - 1 := wrap_sub_eq h1 (by omega)
  have key : ∀ d, bitset_find_next ⟨bt.size, d⟩ prev_index = .ok (-1) := by
    intro d
    unfold bitset_find_next
    dsimp only
    rw [if_neg (by simpa using hs), hsub, if_pos (by omega)]
    rfl
  exact ⟨key bt.data, key⟩

/-- Concrete instance of the amended C19: `prev_index = 129` on a 130-bit bitset. -/
theorem bitset_find_next_at_end_witness :
    1 ≤ (cbitset.mk 130 [5, 2, 3]).size ∧ (cbitset.mk 130 [5, 2, 3]).size ≤ INT_MAX ∧
    (cbitset.mk 130 [5, 2, 3]).size ≤ 129 + 1 ∧
    bitset_find_next ⟨130, [5, 2, 3]⟩ 129 = .ok (-1) ∧
    ∀ d, bitset_find_next ⟨(cbitset.mk 130 [5, 2, 3]).size, d⟩ 129 = .ok (-1) :=
  ⟨by decide, by decide, by decide,
    bitset_find_next_at_end ⟨130, [5, 2, 3]⟩ 129 (by decide) (by decide) (by decide)⟩

/-- On the empty bitset the early return of `bitset_find_next` is missed: `size - 1`
wraps around in `size_t`, the test `prev_index >= size - 1` is false for
`prev_index = 0`, and the call goes on to read `data[0]` of a buffer with no word. -/
theorem bitset_find_next_empty_reads_storage :
    Valid (create_bitset 0) ∧ (create_bitset 0).data = [] ∧
      bitset_find_next (create_bitset 0) 0 = .error .outOfBounds := by
  decide

/-- On the empty bitset, every `prev_index` below `INT_MAX` makes `bitset_find_next`
read a word of the empty buffer. -/
theorem bitset_find_next_empty_out_of_bounds (prev_index : Nat)
    (hp : prev_index < 2147483647) :
    bitset_find_next ⟨0, []⟩ prev_index = .error .outOfBounds := by
  have hnext : to_int (size_t (prev_index + 1)) = ((prev_index + 1 : Nat) : Int) := by
    have : size_t (prev_index + 1) = prev_index + 1 := by unfold size_t; omega
    rw [this, to_int_small (by omega)]
  have hchunk : Int.tdiv ((prev_index + 1 : Nat) : Int) 64 =
      (((prev_index + 1) / 64 : Nat) : Int) := rfl
  have hbit : Int.tmod ((prev_index + 1 : Nat) : Int) 64 =
      (((prev_index + 1) % 64 : Nat) : Int) := rfl
  have hw : wrap_sub 0 1 = 2 ^ 64 - 1 := by decide
  unfold bitset_find_next
  dsimp only
  rw [if_neg (by simp [INT_MAX]), hw, if_neg (by omega)]
  simp only [hnext, hchunk, hbit, Int.toNat_ofNat]
  rw [if_neg (by omega)]
  simp [load, error_bind, bind, Except.bind]

/-! ## Storage accesses of the shifts (C20) -/

/-- The call `shr_bitset(bt, shift)` on a well-formed bitset returns for every shift
amount: every word it reads or writes lies inside the buffer. -/
theorem shr_bitset_in_bounds (bt : cbitset) (shift : Nat) (hw : WellFormed bt)
    (hsh : shift < 2 ^ 64) : ∃ r, shr_bitset bt shift = .ok r := by
  obtain ⟨hs, hlen, hwd⟩ := hw
  by_cases h0 : shift = 0 ∨ bt.size = 0
  · exact ⟨bt, by simp [shr_bitset, h0, pure_eq_ok]⟩
  · have hc : chunks_of bt.size = bt.data.length := by rw [chunks_of_eq hs, hlen]
    have hA : ∃ dA, (if shift / 64 > 0 then do
              let d ← for_up (fun i d => do
                  let w ← load d (i + shift / 64)
                  store d i w) (chunks_of bt.size - shift / 64) 0 bt.data
              for_up (fun i d => store d i 0)
                (chunks_of bt.size - wrap_sub (chunks_of bt.size) (shift / 64))
                (wrap_sub (chunks_of bt.size) (shift / 64)) d
            else pure bt.data) = Except.ok dA ∧
          dA.length = bt.data.length ∧ (∀ w ∈ dA, w < 2 ^ 64) := by
      by_cases hle : shift / 64 ≤ bt.data.length
      · obtain ⟨dA, eA, lA, wA, _⟩ := shr_stage_words bt.data (chunks_of bt.size) (shift / 64)
          hc (by omega) (by omega) hwd
        exact ⟨dA, eA, lA, wA⟩
      · exact ⟨bt.data, shr_stage_words_past bt.data (chunks_of bt.size) (shift / 64)
          (by omega) (by omega), rfl, hwd⟩
    obtain ⟨dA, eA, lA, wA⟩ := hA
    obtain ⟨dB, eB, lB, wB, _⟩ := shr_stage_bits dA (chunks_of bt.size) (shift % 64)
      (by omega) (Nat.mod_lt _ (by norm_num)) wA
    have lB' : dB.length = (bt.size + 63) / 64 := by omega
    have eC := mask_stage hs lB'
    have eD := @normalize_ok ⟨bt.size, masked bt.size dB⟩ hs
      (by rw [masked_length]; exact lB')
    refine ⟨⟨bt.size, masked bt.size (masked bt.size dB)⟩, ?_⟩
    unfold shr_bitset
    rw [if_neg h0]
    dsimp only
    rw [eA, ok_bind, eB, ok_bind, eC, ok_bind, eD]

/-- The call `shl_bitset(bt, shift)` on a well-formed bitset returns whenever the
shift is at most `chunks` whole words. -/
theorem shl_bitset_in_bounds (bt : cbitset) (shift : Nat) (hw : WellFormed bt)
    (hle : shift / 64 ≤ bt.data.length) : ∃ r, shl_bitset bt shift = .ok r := by
  obtain ⟨hs, hlen, hwd⟩ := hw
  by_cases h0 : shift = 0 ∨ bt.size = 0
  · exact ⟨bt, by simp [shl_bitset, h0, pure_eq_ok]⟩
  · have hc : chunks_of bt.size = bt.data.length := by rw [chunks_of_eq hs, hlen]
    obtain ⟨dA, eA, lA, wA, _⟩ := shl_stage_words bt.data (chunks_of bt.size) (shift / 64) hc
      (by omega) hwd
    obtain ⟨dB, eB, lB, wB, _⟩ := shl_stage_bits dA (chunks_of bt.size) (shift % 64)
      (by omega) (Nat.mod_lt _ (by norm_num)) wA
    have lB' : dB.length = (bt.size + 63) / 64 := by omega
    have eC := mask_stage hs lB'
    have eD := @normalize_ok ⟨bt.size, masked bt.size dB⟩ hs
      (by rw [masked_length]; exact lB')
    refine ⟨⟨bt.size, masked bt.size (masked bt.size dB)⟩, ?_⟩
    unfold shl_bitset
    rw [if_neg h0]
    dsimp only
    rw [eA, ok_bind, eB, ok_bind, eC, ok_bind, eD]

/-- The call `shl_bitset(bt, shift)` on a well-formed nonempty bitset writes outside
the buffer for every shift of more than `chunks` whole words. -/
theorem shl_bitset_past_storage (bt : cbitset) (shift : Nat) (hw : WellFormed bt)
    (h0 : bt.size ≠ 0) (hbig : bt.data.length < shift / 64) :
    shl_bitset bt shift = .error .outOfBounds := by
  have hc : chunks_of bt.size = bt.data.length := by rw [chunks_of_eq hw.1, hw.2.1]
  have hz : chunks_of bt.size - shift / 64 = 0 := by omega
  unfold shl_bitset
  rw [if_neg (by omega)]
  dsimp only
  rw [if_pos (by omega), hz]
  simp only [for_down, ok_bind]
  rw [zero_fill_out_of_bounds _ _ _ (Nat.zero_le _) (by omega)]
  rfl

/-- C20 at the input `size = 130`, `data = [1, 2, 3]`, `shift = 256`: the bitset has
its `ceil(130 / 64) = 3` words, `word_shift = 4`, and the zero-fill loop of
`shl_bitset` writes `data[3]`, outside the storage; `shr_bitset` on the same input
stays inside it and returns. -/
theorem shl_bitset_zero_fill_leaves_storage :
    WellFormed ⟨130, [1, 2, 3]⟩ ∧
    shl_bitset ⟨130, [1, 2, 3]⟩ 256 = .error .outOfBounds ∧
    ∃ r, shr_bitset ⟨130, [1, 2, 3]⟩ 256 = .ok r := by
  refine ⟨by decide, by decide, ⟨⟨130, [1, 2, 3]⟩, by decide⟩⟩

end CBitset
